import Mathlib

/- Verification development for the OpenScan repository.

   Part 1 embeds the frontend developer-tool utilities from
   src/utils/devtools.ts (unit conversion, hex encoding, address parsing).
   JavaScript strings are modelled as `List Char`, the JavaScript `bigint`
   type as `Nat` (every value in scope is nonnegative), and functions that
   can throw return `Except`; functions that return null return `Option`.

   Part 2 models the indexing and synchronization engine described in the
   design document.  The engine's Python sources are not part of this
   checkout, so those definitions are modelled from the spec, as marked in
   their doc comments. -/

namespace OpenScan

/-! ## JavaScript string primitives -/

/-- The whitespace characters removed by `String.prototype.trim` that can
occur in the inputs of interest (ASCII whitespace). -/
def isJsWhitespace (c : Char) : Bool :=
  c == ' ' || c == '\t' || c == '\n' || c == '\r'

/-- Model of `value.trim()`. -/
def jsTrim (s : List Char) : List Char :=
  ((s.dropWhile isJsWhitespace).reverse.dropWhile isJsWhitespace).reverse

/-- Model of `s.padStart(len, c)`. -/
def padStart (s : List Char) (len : Nat) (c : Char) : List Char :=
  List.replicate (len - s.length) c ++ s

/-- Model of `s.padEnd(len, c)`. -/
def padEnd (s : List Char) (len : Nat) (c : Char) : List Char :=
  s ++ List.replicate (len - s.length) c

/-- Model of `s.replace(/0+$/, '')`: remove all trailing `'0'` characters. -/
def dropTrailingZeros (s : List Char) : List Char :=
  (s.reverse.dropWhile (fun c => c == '0')).reverse

/-- Model of `s.startsWith("0x")` (case sensitive, like the JavaScript method). -/
def startsWith0x : List Char → Bool
  | c0 :: c1 :: _ => c0 == '0' && c1 == 'x'
  | _ => false

/-- Model of `s.split('.')`. -/
def splitOnDot : List Char → List (List Char)
  | [] => [[]]
  | c :: rest =>
    if c = '.' then [] :: splitOnDot rest
    else
      match splitOnDot rest with
      | [] => [[c]]
      | p :: ps => (c :: p) :: ps

/-- Concatenation of a list of strings, modelling `parts.join('')`. -/
def concatAll : List (List Char) → List Char
  | [] => []
  | x :: xs => x ++ concatAll xs

/-! ## Digit strings

`natToBaseChars b n` models `n.toString(b)` for a `bigint` `n` (used with
`b = 10` and `b = 16`).  It is written with explicit fuel so that it reduces
inside the kernel; `natToBaseAux_eq_digits` connects it to `Nat.digits`. -/

def natToBaseAux (b : Nat) : Nat → Nat → List Char → List Char
  | 0, _, acc => acc
  | fuel + 1, n, acc =>
    if n = 0 then acc
    else natToBaseAux b fuel (n / b) (Nat.digitChar (n % b) :: acc)

/-- Decimal / hexadecimal rendering of a natural number, as `bigint.toString`. -/
def natToBaseChars (b n : Nat) : List Char :=
  if n = 0 then ['0'] else natToBaseAux b n n []

/-- Numeric value of a decimal digit character (`c.charCodeAt(0) - 48`). -/
def decDigitVal (c : Char) : Nat := c.toNat - 48

/-- Value of a digit string interpreted in base `b` by a left fold, the shape
shared by `BigInt(str)` on digit strings and by `parseInt(str, 16)`. -/
def baseFoldVal (b : Nat) (val : Char → Nat) (s : List Char) : Nat :=
  s.foldl (fun a c => a * b + val c) 0

theorem foldl_base_shift (b : Nat) (val : Char → Nat) :
    ∀ (s : List Char) (a : Nat),
      s.foldl (fun x c => x * b + val c) a = a * b ^ s.length + baseFoldVal b val s := by
  intro s
  induction s with
  | nil => intro a; simp [baseFoldVal]
  | cons c rest ih =>
    intro a
    have h1 : (c :: rest).foldl (fun x c => x * b + val c) a
        = rest.foldl (fun x c => x * b + val c) (a * b + val c) := rfl
    have h2 : baseFoldVal b val (c :: rest)
        = rest.foldl (fun x c => x * b + val c) (0 * b + val c) := rfl
    rw [h1, ih, h2]
    have h3 : rest.foldl (fun x c => x * b + val c) (0 * b + val c)
        = (0 * b + val c) * b ^ rest.length + baseFoldVal b val rest := ih _
    rw [h3]
    simp [List.length_cons, pow_succ]
    ring

theorem baseFoldVal_append (b : Nat) (val : Char → Nat) (s t : List Char) :
    baseFoldVal b val (s ++ t)
      = baseFoldVal b val s * b ^ t.length + baseFoldVal b val t := by
  unfold baseFoldVal
  rw [List.foldl_append, foldl_base_shift]
  rfl

theorem baseFoldVal_replicate (b : Nat) (val : Char → Nat) (c0 : Char)
    (h : val c0 = 0) (k : Nat) : baseFoldVal b val (List.replicate k c0) = 0 := by
  induction k with
  | zero => rfl
  | succ m ih =>
    have : baseFoldVal b val (List.replicate (m + 1) c0)
        = (List.replicate m c0).foldl (fun a c => a * b + val c) (0 * b + val c0) := rfl
    rw [this, h]
    simpa [baseFoldVal] using ih

theorem baseFoldVal_padStart (b : Nat) (val : Char → Nat) (c0 : Char)
    (h : val c0 = 0) (s : List Char) (k : Nat) :
    baseFoldVal b val (padStart s k c0) = baseFoldVal b val s := by
  unfold padStart
  rw [baseFoldVal_append, baseFoldVal_replicate b val c0 h]
  simp

/-- `natToBaseAux` with enough fuel produces the base-`b` digit characters. -/
theorem natToBaseAux_eq_digits (b : Nat) (hb : 1 < b) :
    ∀ (fuel n : Nat) (acc : List Char), n ≤ fuel →
      natToBaseAux b fuel n acc = ((Nat.digits b n).map Nat.digitChar).reverse ++ acc := by
  intro fuel
  induction fuel with
  | zero =>
    intro n acc hn
    have : n = 0 := Nat.le_zero.mp hn
    subst this
    simp [natToBaseAux]
  | succ f ih =>
    intro n acc hn
    by_cases h0 : n = 0
    · subst h0; simp [natToBaseAux]
    · have hpos : 0 < n := Nat.pos_of_ne_zero h0
      have hstep : natToBaseAux b (f + 1) n acc
          = natToBaseAux b f (n / b) (Nat.digitChar (n % b) :: acc) := by
        simp [natToBaseAux, h0]
      have hdiv : n / b ≤ f := by
        have : n / b < n := Nat.div_lt_self hpos hb
        omega
      rw [hstep, ih (n / b) _ hdiv, Nat.digits_def' hb hpos]
      simp

theorem natToBaseChars_eq (b : Nat) (hb : 1 < b) (n : Nat) (hn : n ≠ 0) :
    natToBaseChars b n = ((Nat.digits b n).map Nat.digitChar).reverse := by
  unfold natToBaseChars
  rw [if_neg hn, natToBaseAux_eq_digits b hb n n [] (le_refl n)]
  simp

theorem natToBaseChars_ne_nil (b n : Nat) (hb : 1 < b) : natToBaseChars b n ≠ [] := by
  by_cases h0 : n = 0
  · subst h0; simp [natToBaseChars]
  · rw [natToBaseChars_eq b hb n h0]
    simp [Nat.digits_ne_nil_iff_ne_zero.mpr h0]

theorem mem_natToBaseChars (b n : Nat) (hb : 1 < b) :
    ∀ c ∈ natToBaseChars b n, c = '0' ∨ ∃ d, d < b ∧ c = Nat.digitChar d := by
  by_cases h0 : n = 0
  · subst h0
    intro c hc
    simp [natToBaseChars] at hc
    exact Or.inl hc
  · rw [natToBaseChars_eq b hb n h0]
    intro c hc
    simp only [List.mem_reverse, List.mem_map] at hc
    obtain ⟨d, hd, rfl⟩ := hc
    exact Or.inr ⟨d, Nat.digits_lt_base hb hd, rfl⟩

/-- The fold-based value inverts rendering, for any digit valuation that is
correct on the digit characters of base `b`. -/
theorem baseFoldVal_natToBaseChars (b : Nat) (hb : 1 < b) (val : Char → Nat)
    (hval : ∀ d, d < b → val (Nat.digitChar d) = d) (n : Nat) :
    baseFoldVal b val (natToBaseChars b n) = n := by
  have hval0 : val '0' = 0 := by
    have := hval 0 (by omega)
    simpa using this
  by_cases h0 : n = 0
  · subst h0
    simp [natToBaseChars, baseFoldVal, hval0]
  · rw [natToBaseChars_eq b hb n h0]
    have key : ∀ m : Nat, ((Nat.digits b m).reverse).foldl (fun a d => a * b + d) 0 = m := by
      intro m
      induction m using Nat.strong_induction_on with
      | _ m ihm =>
        by_cases hm : m = 0
        · subst hm; simp
        · have hpos : 0 < m := Nat.pos_of_ne_zero hm
          rw [Nat.digits_def' hb hpos]
          have hlt : m / b < m := Nat.div_lt_self hpos hb
          have : ((m % b :: Nat.digits b (m / b)).reverse).foldl (fun a d => a * b + d) 0
              = ((Nat.digits b (m / b)).reverse ++ [m % b]).foldl (fun a d => a * b + d) 0 := by
            simp
          rw [this, List.foldl_append, ihm (m / b) hlt]
          simp [Nat.div_add_mod, Nat.mul_comm]
    calc baseFoldVal b val ((Nat.digits b n).map Nat.digitChar).reverse
        = ((Nat.digits b n).reverse).foldl (fun a d => a * b + val (Nat.digitChar d)) 0 := by
          unfold baseFoldVal
          rw [← List.map_reverse, List.foldl_map]
      _ = ((Nat.digits b n).reverse.map (fun d => val (Nat.digitChar d))).foldl
            (fun a d => a * b + d) 0 := by
          rw [List.foldl_map]
      _ = ((Nat.digits b n).reverse).foldl (fun a d => a * b + d) 0 := by
          congr 1
          rw [List.map_congr_left, List.map_id]
          intro d hd
          exact hval d (Nat.digits_lt_base hb (List.mem_reverse.mp hd))
      _ = n := key n

theorem natToBaseChars_length_le (b : Nat) (hb : 1 < b) (n k : Nat)
    (hk : 0 < k) (hn : n < b ^ k) : (natToBaseChars b n).length ≤ k := by
  by_cases h0 : n = 0
  · subst h0; simpa [natToBaseChars] using hk
  · rw [natToBaseChars_eq b hb n h0]
    simp only [List.length_reverse, List.length_map]
    rw [Nat.digits_len b n hb h0]
    have := Nat.log_lt_of_lt_pow h0 hn
    omega

theorem digitChar_isDigit (d : Nat) (hd : d < 10) : (Nat.digitChar d).isDigit = true := by
  interval_cases d <;> decide

theorem decDigitVal_digitChar (d : Nat) (hd : d < 10) : decDigitVal (Nat.digitChar d) = d := by
  interval_cases d <;> decide

theorem mem_natToBaseChars10_isDigit (n : Nat) :
    ∀ c ∈ natToBaseChars 10 n, c.isDigit = true := by
  intro c hc
  rcases mem_natToBaseChars 10 n (by omega) c hc with h | ⟨d, hd, rfl⟩
  · subst h; decide
  · exact digitChar_isDigit d hd

theorem isDigit_not_ws (c : Char) (h : c.isDigit = true) : isJsWhitespace c = false := by
  by_cases h1 : c = ' '
  · subst h1; exact absurd h (by decide)
  by_cases h2 : c = '\t'
  · subst h2; exact absurd h (by decide)
  by_cases h3 : c = '\n'
  · subst h3; exact absurd h (by decide)
  by_cases h4 : c = '\r'
  · subst h4; exact absurd h (by decide)
  simp [isJsWhitespace, h1, h2, h3, h4]

theorem isDigit_ne_dot (c : Char) (h : c.isDigit = true) : c ≠ '.' := by
  intro heq
  subst heq
  simp [Char.isDigit] at h

/-! ### Lemmas about the string primitives -/

theorem dropWhile_eq_self_of_none {p : Char → Bool} :
    ∀ {s : List Char}, (∀ c ∈ s, p c = false) → s.dropWhile p = s := by
  intro s hs
  cases s with
  | nil => rfl
  | cons c rest =>
    rw [List.dropWhile_cons]
    simp [hs c (List.mem_cons_self c rest)]

theorem jsTrim_eq_self {s : List Char} (h : ∀ c ∈ s, isJsWhitespace c = false) :
    jsTrim s = s := by
  unfold jsTrim
  rw [dropWhile_eq_self_of_none h, dropWhile_eq_self_of_none, List.reverse_reverse]
  intro c hc
  exact h c (List.mem_reverse.mp hc)

theorem splitOnDot_ne_nil : ∀ s : List Char, splitOnDot s ≠ [] := by
  intro s
  induction s with
  | nil => simp [splitOnDot]
  | cons c rest ih =>
    unfold splitOnDot
    by_cases hc : c = '.'
    · simp [hc]
    · simp only [if_neg hc]
      cases hsp : splitOnDot rest with
      | nil => simp
      | cons p ps => simp

theorem splitOnDot_no_dot {s : List Char} (h : '.' ∉ s) : splitOnDot s = [s] := by
  induction s with
  | nil => rfl
  | cons c rest ih =>
    have hc : c ≠ '.' := fun heq => h (heq ▸ List.mem_cons_self c rest)
    have hr : '.' ∉ rest := fun hm => h (List.mem_cons_of_mem c hm)
    unfold splitOnDot
    rw [if_neg hc, ih hr]

theorem splitOnDot_append_dot {a b : List Char} (h : '.' ∉ a) :
    splitOnDot (a ++ '.' :: b) = a :: splitOnDot b := by
  induction a with
  | nil => simp [splitOnDot]
  | cons c rest ih =>
    have hc : c ≠ '.' := fun heq => h (heq ▸ List.mem_cons_self c rest)
    have hr : '.' ∉ rest := fun hm => h (List.mem_cons_of_mem c hm)
    have hsplit : (c :: rest) ++ '.' :: b = c :: (rest ++ '.' :: b) := rfl
    rw [hsplit]
    conv_lhs => unfold splitOnDot
    rw [if_neg hc, ih hr]

theorem dropTrailingZeros_spec (s : List Char) :
    s = dropTrailingZeros s
        ++ List.replicate (s.length - (dropTrailingZeros s).length) '0' := by
  unfold dropTrailingZeros
  conv_lhs => rw [← List.reverse_reverse s,
    ← List.takeWhile_append_dropWhile (p := fun c => c == '0') (l := s.reverse)]
  have htw : s.reverse.takeWhile (fun c => c == '0')
      = List.replicate (s.reverse.takeWhile (fun c => c == '0')).length '0' := by
    apply List.eq_replicate_of_mem
    intro c hc
    have := List.mem_takeWhile_imp hc
    simpa using this
  rw [List.reverse_append, htw, List.reverse_replicate]
  congr 2
  have hlen : s.length = (s.reverse.takeWhile (fun c => c == '0')).length
      + (s.reverse.dropWhile (fun c => c == '0')).length := by
    have h2 := congrArg List.length
      (List.takeWhile_append_dropWhile (p := fun c => c == '0') (l := s.reverse))
    rw [List.length_append, List.length_reverse] at h2
    omega
  simp only [List.length_reverse]
  omega

theorem dropTrailingZeros_length_le (s : List Char) :
    (dropTrailingZeros s).length ≤ s.length := by
  unfold dropTrailingZeros
  simp only [List.length_reverse]
  exact (List.dropWhile_sublist _).length_le.trans (by simp)

theorem mem_dropTrailingZeros {c : Char} {s : List Char}
    (h : c ∈ dropTrailingZeros s) : c ∈ s := by
  unfold dropTrailingZeros at h
  have := (List.dropWhile_sublist (p := fun c => c == '0') (l := s.reverse)).mem
      (List.mem_reverse.mp h)
  exact List.mem_reverse.mp this

theorem padEnd_dropTrailingZeros (s : List Char) :
    padEnd (dropTrailingZeros s) s.length '0' = s := by
  unfold padEnd
  exact (dropTrailingZeros_spec s).symm

/-! ## Unit conversion (src/utils/devtools.ts) -/

inductive EthUnit where
  | eth
  | finney
  | szabo
  | gwei
  | mwei
  | kwei
  | wei
deriving DecidableEq, Repr

/-- `UNIT_DECIMALS`: decimals of each unit relative to wei. -/
def UNIT_DECIMALS : EthUnit → Nat
  | EthUnit.eth => 18
  | EthUnit.finney => 15
  | EthUnit.szabo => 12
  | EthUnit.gwei => 9
  | EthUnit.mwei => 6
  | EthUnit.kwei => 3
  | EthUnit.wei => 0

/-- Decimal rendering of a `bigint`, i.e. `weiValue.toString()`. -/
def natToChars (n : Nat) : List Char := natToBaseChars 10 n

/-- Model of `BigInt(combined)` on the digit-only strings produced inside
`parseToWei` (the regexes have already validated the characters; on an
all-digit string `BigInt` returns its decimal value, and `BigInt('')` is 0). -/
def bigIntOfStr (s : List Char) : Option Nat :=
  if s.all Char.isDigit then some (baseFoldVal 10 decDigitVal s) else none

/-- `formatUnitValue(weiValue, unit)` from src/utils/devtools.ts.  The loop
computing `divisor` is `10 ^ decimals`. -/
def formatUnitValue (weiValue : Nat) (unit : EthUnit) : List Char :=
  let decimals := UNIT_DECIMALS unit
  if decimals = 0 then natToChars weiValue
  else
    let divisor := 10 ^ decimals
    let integerPart := weiValue / divisor
    let remainder := weiValue % divisor
    if remainder = 0 then natToChars integerPart
    else
      let fractionalStr := dropTrailingZeros (padStart (natToChars remainder) decimals '0')
      if fractionalStr.isEmpty then natToChars integerPart
      else natToChars integerPart ++ '.' :: fractionalStr

/-- `parseToWei(value, fromUnit)` from src/utils/devtools.ts. -/
def parseToWei (value : List Char) (fromUnit : EthUnit) : Option Nat :=
  let trimmed := jsTrim value
  if trimmed.isEmpty then none
  else
    let decimals := UNIT_DECIMALS fromUnit
    let parts := splitOnDot trimmed
    let integerPart := if (parts.headD []).isEmpty then ['0'] else parts.headD []
    let fractionalPart := (parts.drop 1).headD []
    if !(integerPart.all Char.isDigit) || !(fractionalPart.all Char.isDigit) then none
    else
      let fractionalPart :=
        if decimals < fractionalPart.length then fractionalPart.take decimals
        else padEnd fractionalPart decimals '0'
      bigIntOfStr (integerPart ++ fractionalPart)

/-- The record returned by `convertEthUnits`. -/
structure UnitRecord where
  eth : List Char
  finney : List Char
  szabo : List Char
  gwei : List Char
  mwei : List Char
  kwei : List Char
  wei : List Char
deriving DecidableEq, Repr

/-- Field selection on a `UnitRecord` by unit. -/
def unitField (r : UnitRecord) : EthUnit → List Char
  | EthUnit.eth => r.eth
  | EthUnit.finney => r.finney
  | EthUnit.szabo => r.szabo
  | EthUnit.gwei => r.gwei
  | EthUnit.mwei => r.mwei
  | EthUnit.kwei => r.kwei
  | EthUnit.wei => r.wei

/-- `convertEthUnits(value, from)` from src/utils/devtools.ts. -/
def convertEthUnits (value : List Char) (fromUnit : EthUnit) : Option UnitRecord :=
  match parseToWei value fromUnit with
  | none => none
  | some weiValue =>
    some
      { eth := formatUnitValue weiValue EthUnit.eth
        finney := formatUnitValue weiValue EthUnit.finney
        szabo := formatUnitValue weiValue EthUnit.szabo
        gwei := formatUnitValue weiValue EthUnit.gwei
        mwei := formatUnitValue weiValue EthUnit.mwei
        kwei := formatUnitValue weiValue EthUnit.kwei
        wei := formatUnitValue weiValue EthUnit.wei }

/-! ### Round-trip parse / format -/

theorem isEmpty_false_of_ne {s : List Char} (h : s ≠ []) : s.isEmpty = false := by
  cases s with
  | nil => exact absurd rfl h
  | cons a t => rfl

theorem natToChars_all_digits (n : Nat) : (natToChars n).all Char.isDigit = true := by
  simp only [List.all_eq_true]
  intro c hc
  exact mem_natToBaseChars10_isDigit n c hc

theorem natToChars_ne_nil (n : Nat) : natToChars n ≠ [] :=
  natToBaseChars_ne_nil 10 n (by omega)

theorem baseFoldVal_natToChars (n : Nat) :
    baseFoldVal 10 decDigitVal (natToChars n) = n :=
  baseFoldVal_natToBaseChars 10 (by omega) decDigitVal decDigitVal_digitChar n

theorem replicate_zero_all_digits (k : Nat) :
    (List.replicate k '0').all Char.isDigit = true := by
  simp only [List.all_eq_true, List.mem_replicate]
  rintro c ⟨-, rfl⟩
  decide

/-- Parsing a plain digit string appends `decimals` zeros before converting. -/
theorem parseToWei_of_digits (s : List Char) (u : EthUnit)
    (hs : s.all Char.isDigit = true) (hne : s ≠ []) :
    parseToWei s u = bigIntOfStr (s ++ List.replicate (UNIT_DECIMALS u) '0') := by
  have hmem : ∀ c ∈ s, c.isDigit = true := by
    simpa only [List.all_eq_true] using hs
  have htrim : jsTrim s = s := jsTrim_eq_self (fun c hc => isDigit_not_ws c (hmem c hc))
  have hnodot : '.' ∉ s := fun hdot => isDigit_ne_dot '.' (hmem '.' hdot) rfl
  have hsplit : splitOnDot s = [s] := splitOnDot_no_dot hnodot
  unfold parseToWei
  simp only [htrim, isEmpty_false_of_ne hne, hsplit, List.headD_cons, List.drop_succ_cons,
    List.drop_nil, List.headD_nil, Bool.false_eq_true, if_false, hs, List.all_nil,
    Bool.not_true, Bool.or_self, List.length_nil, Nat.not_lt_zero]
  simp [padEnd]

/-- Parsing a digit string with a dot and a short enough fractional part. -/
theorem parseToWei_of_dotted (ipStr fr : List Char) (u : EthUnit)
    (hip : ipStr.all Char.isDigit = true) (hipne : ipStr ≠ [])
    (hfr : fr.all Char.isDigit = true)
    (hlen : fr.length ≤ UNIT_DECIMALS u) :
    parseToWei (ipStr ++ '.' :: fr) u
      = bigIntOfStr (ipStr ++ padEnd fr (UNIT_DECIMALS u) '0') := by
  have hmemi : ∀ c ∈ ipStr, c.isDigit = true := by
    simpa only [List.all_eq_true] using hip
  have hmemf : ∀ c ∈ fr, c.isDigit = true := by
    simpa only [List.all_eq_true] using hfr
  have htrim : jsTrim (ipStr ++ '.' :: fr) = ipStr ++ '.' :: fr := by
    apply jsTrim_eq_self
    intro c hc
    rcases List.mem_append.mp hc with h | h
    · exact isDigit_not_ws c (hmemi c h)
    · rcases List.mem_cons.mp h with rfl | h
      · decide
      · exact isDigit_not_ws c (hmemf c h)
  have hnodoti : '.' ∉ ipStr := fun hdot => isDigit_ne_dot '.' (hmemi '.' hdot) rfl
  have hnodotf : '.' ∉ fr := fun hdot => isDigit_ne_dot '.' (hmemf '.' hdot) rfl
  have hsplit : splitOnDot (ipStr ++ '.' :: fr) = [ipStr, fr] := by
    rw [splitOnDot_append_dot hnodoti, splitOnDot_no_dot hnodotf]
  have hne : ipStr ++ '.' :: fr ≠ [] := by
    cases ipStr <;> simp
  unfold parseToWei
  simp only [htrim, isEmpty_false_of_ne hne, hsplit, List.headD_cons, List.drop_succ_cons,
    List.drop_zero, List.drop_nil, List.headD_nil, isEmpty_false_of_ne hipne, hip, hfr,
    Bool.not_true, Bool.or_self, Bool.false_eq_true, if_false]
  rw [if_neg (by omega)]

theorem bigIntOfStr_digits_zeros (n k : Nat) :
    bigIntOfStr (natToChars n ++ List.replicate k '0') = some (n * 10 ^ k) := by
  unfold bigIntOfStr
  rw [if_pos]
  · congr 1
    rw [baseFoldVal_append, baseFoldVal_natToChars,
      baseFoldVal_replicate 10 decDigitVal '0' (by decide)]
    simp
  · simp only [List.all_append, natToChars_all_digits, replicate_zero_all_digits,
      Bool.and_self]

/-- Formatting a wei value in a unit and parsing it back is the identity. -/
theorem parseToWei_formatUnitValue (w : Nat) (u : EthUnit) :
    parseToWei (formatUnitValue w u) u = some w := by
  by_cases hd0 : UNIT_DECIMALS u = 0
  · have hfmt : formatUnitValue w u = natToChars w := by
      unfold formatUnitValue
      rw [if_pos hd0]
    rw [hfmt, parseToWei_of_digits _ u (natToChars_all_digits w) (natToChars_ne_nil w),
      bigIntOfStr_digits_zeros, hd0]
    simp
  · set d := UNIT_DECIMALS u with hdu
    have hdpos : 0 < d := Nat.pos_of_ne_zero hd0
    have hdivpos : 0 < 10 ^ d := Nat.pos_pow_of_pos d (by omega)
    set ip := w / 10 ^ d with hip
    set r := w % 10 ^ d with hr
    by_cases hr0 : r = 0
    · have hfmt : formatUnitValue w u = natToChars ip := by
        unfold formatUnitValue
        rw [if_neg hd0]
        simp only [← hdu, ← hip, ← hr]
        rw [if_pos hr0]
      rw [hfmt, parseToWei_of_digits _ u (natToChars_all_digits ip) (natToChars_ne_nil ip),
        bigIntOfStr_digits_zeros]
      congr 1
      rw [← hdu, hip]
      exact Nat.div_mul_cancel (Nat.dvd_of_mod_eq_zero (by rw [← hr]; exact hr0))
    · -- the fractional branch
      set P := padStart (natToChars r) d '0' with hP
      have hrlt : r < 10 ^ d := Nat.mod_lt w hdivpos
      have hlenP : P.length = d := by
        rw [hP]
        unfold padStart
        have hle : (natToChars r).length ≤ d :=
          natToBaseChars_length_le 10 (by omega) r d hdpos hrlt
        simp only [List.length_append, List.length_replicate]
        omega
      have hPdigits : ∀ c ∈ P, c.isDigit = true := by
        intro c hc
        rw [hP] at hc
        unfold padStart at hc
        rcases List.mem_append.mp hc with h | h
        · rcases List.mem_replicate.mp h with ⟨-, rfl⟩
          decide
        · exact mem_natToBaseChars10_isDigit r c h
      have hvalP : baseFoldVal 10 decDigitVal P = r := by
        rw [hP, baseFoldVal_padStart 10 decDigitVal '0' (by decide),
          baseFoldVal_natToChars]
      set fr := dropTrailingZeros P with hfr
      have hfrne : fr ≠ [] := by
        intro hnil
        have hPz : P = List.replicate P.length '0' := by
          conv_lhs => rw [dropTrailingZeros_spec P]
          rw [← hfr, hnil]
          simp
        rw [hPz, baseFoldVal_replicate 10 decDigitVal '0' (by decide)] at hvalP
        exact hr0 hvalP.symm
      have hfmt : formatUnitValue w u = natToChars ip ++ '.' :: fr := by
        unfold formatUnitValue
        rw [if_neg hd0]
        simp only [← hdu, ← hip, ← hr, ← hP, ← hfr]
        rw [if_neg hr0, if_neg (by simp [isEmpty_false_of_ne hfrne])]
      have hfrdigits : fr.all Char.isDigit = true := by
        simp only [List.all_eq_true]
        intro c hc
        exact hPdigits c (mem_dropTrailingZeros (hfr ▸ hc))
      have hfrlen : fr.length ≤ d := by
        have := dropTrailingZeros_length_le P
        rw [← hfr] at this
        omega
      rw [hfmt, parseToWei_of_dotted (natToChars ip) fr u (natToChars_all_digits ip)
        (natToChars_ne_nil ip) hfrdigits hfrlen]
      have hpad : padEnd fr d '0' = P := by
        rw [hfr, ← hlenP, padEnd_dropTrailingZeros]
      rw [hpad]
      unfold bigIntOfStr
      rw [if_pos]
      · congr 1
        rw [baseFoldVal_append, baseFoldVal_natToChars, hvalP, hlenP, hip, hr,
          Nat.mul_comm]
        exact Nat.div_add_mod w (10 ^ d)
      · simp only [List.all_append, natToChars_all_digits, Bool.true_and]
        simp only [List.all_eq_true]
        exact hPdigits

/-- C8: for every nonnegative wei amount and every unit, formatting and then
parsing back in the same unit is the identity; consequently the seven strings
returned by `convertEthUnits` all denote the wei value of the input, so they
agree exactly (computed with `Nat`, the model of exact `bigint` arithmetic). -/
theorem convertEthUnits_roundtrip_exact :
    (∀ (w : Nat) (u : EthUnit), parseToWei (formatUnitValue w u) u = some w) ∧
    (∀ (value : List Char) (fromUnit : EthUnit) (r : UnitRecord),
      convertEthUnits value fromUnit = some r →
      ∀ u : EthUnit, parseToWei (unitField r u) u = parseToWei value fromUnit) := by
  refine ⟨parseToWei_formatUnitValue, ?_⟩
  intro value fromUnit r hconv u
  unfold convertEthUnits at hconv
  cases hw : parseToWei value fromUnit with
  | none => rw [hw] at hconv; exact absurd hconv (by simp)
  | some w =>
    rw [hw] at hconv
    have hreq : r = { eth := formatUnitValue w EthUnit.eth
                      finney := formatUnitValue w EthUnit.finney
                      szabo := formatUnitValue w EthUnit.szabo
                      gwei := formatUnitValue w EthUnit.gwei
                      mwei := formatUnitValue w EthUnit.mwei
                      kwei := formatUnitValue w EthUnit.kwei
                      wei := formatUnitValue w EthUnit.wei } := by
      injection hconv with h
      exact h.symm
    subst hreq
    cases u <;> simp only [unitField] <;> rw [parseToWei_formatUnitValue]

/-! ## Hex encoder / decoder (src/utils/devtools.ts) -/

/-- Hex-digit value of a character, as accepted by `parseInt(•, 16)`. -/
def hexDigitVal (c : Char) : Option Nat :=
  if '0' ≤ c ∧ c ≤ '9' then some (c.toNat - 48)
  else if 'a' ≤ c ∧ c ≤ 'f' then some (c.toNat - 87)
  else if 'A' ≤ c ∧ c ≤ 'F' then some (c.toNat - 55)
  else none

/-- Total valuation used to state facts about `parseIntHex`. -/
def hexVal (c : Char) : Nat := (hexDigitVal c).getD 0

def parseIntHexGo : List Char → Nat → Nat
  | [], a => a
  | c :: rest, a =>
    match hexDigitVal c with
    | some d => parseIntHexGo rest (a * 16 + d)
    | none => a

/-- Model of `parseInt(str, 16)` on the two-character chunks produced inside
`hexToString`: the value of the longest hex-digit prefix, `none` when the
first character is not a hex digit (JavaScript `NaN`). -/
def parseIntHex : List Char → Option Nat
  | [] => none
  | c :: rest =>
    match hexDigitVal c with
    | some d => some (parseIntHexGo rest d)
    | none => none

/-- Model of `hex.match(/.{1,2}/g)`: split into chunks of two (a final odd
character forms a one-character chunk); the empty string gives no chunks. -/
def chunkPairs : List Char → List (List Char)
  | [] => []
  | [c] => [[c]]
  | c1 :: c2 :: rest => [c1, c2] :: chunkPairs rest

/-- Model of `String.fromCharCode(v)`, where `none` stands for `NaN`
(JavaScript maps `NaN` to the code unit 0). -/
def fromCharCodeJs (o : Option Nat) : Char := Char.ofNat (o.getD 0)

/-- `stringToHex(data)` from src/utils/devtools.ts. -/
def stringToHex (data : List Char) : List Char :=
  if startsWith0x data then data
  else
    '0' :: 'x' :: concatAll (data.map fun c => padStart (natToBaseChars 16 c.toNat) 2 '0')

/-- `hexToString(hexData)` from src/utils/devtools.ts. -/
def hexToString (hexData : List Char) : Except String (List Char) :=
  if startsWith0x hexData = false then
    Except.error "Invalid hex format (must start with 0x)"
  else
    Except.ok ((chunkPairs (hexData.drop 2)).map fun byte => fromCharCodeJs (parseIntHex byte))

theorem hexDigitVal_digitChar (d : Nat) (hd : d < 16) :
    hexDigitVal (Nat.digitChar d) = some d := by
  interval_cases d <;> decide

theorem hexVal_digitChar (d : Nat) (hd : d < 16) : hexVal (Nat.digitChar d) = d := by
  rw [hexVal, hexDigitVal_digitChar d hd]
  rfl

theorem mem_natToBaseChars16_hex (n : Nat) :
    ∀ c ∈ natToBaseChars 16 n, (hexDigitVal c).isSome = true := by
  intro c hc
  rcases mem_natToBaseChars 16 n (by omega) c hc with rfl | ⟨d, hd, rfl⟩
  · decide
  · rw [hexDigitVal_digitChar d hd]; rfl

theorem parseIntHexGo_eq_foldl :
    ∀ (s : List Char) (a : Nat), (∀ c ∈ s, (hexDigitVal c).isSome = true) →
      parseIntHexGo s a = s.foldl (fun x c => x * 16 + hexVal c) a := by
  intro s
  induction s with
  | nil => intro a _; rfl
  | cons c rest ih =>
    intro a hall
    have hc : (hexDigitVal c).isSome = true := hall c (List.mem_cons_self c rest)
    obtain ⟨d, hd⟩ := Option.isSome_iff_exists.mp hc
    have hgo : parseIntHexGo (c :: rest) a = parseIntHexGo rest (a * 16 + d) := by
      conv_lhs => unfold parseIntHexGo
      rw [hd]
    rw [hgo, ih _ (fun x hx => hall x (List.mem_cons_of_mem c hx))]
    have : hexVal c = d := by rw [hexVal, hd]; rfl
    rw [List.foldl_cons, this]

theorem parseIntHex_valid (s : List Char) (hne : s ≠ [])
    (hall : ∀ c ∈ s, (hexDigitVal c).isSome = true) :
    parseIntHex s = some (baseFoldVal 16 hexVal s) := by
  cases s with
  | nil => exact absurd rfl hne
  | cons c rest =>
    have hc : (hexDigitVal c).isSome = true := hall c (List.mem_cons_self c rest)
    obtain ⟨d, hd⟩ := Option.isSome_iff_exists.mp hc
    have h1 : parseIntHex (c :: rest) = some (parseIntHexGo rest d) := by
      simp only [parseIntHex]
      rw [hd]
    rw [h1, parseIntHexGo_eq_foldl rest d (fun x hx => hall x (List.mem_cons_of_mem c hx))]
    have hvc : hexVal c = d := by rw [hexVal, hd]; rfl
    unfold baseFoldVal
    rw [List.foldl_cons]
    congr 1
    simp [hvc]

/-- Encoding of one character inside `stringToHex`. -/
def encodeByte (c : Char) : List Char := padStart (natToBaseChars 16 c.toNat) 2 '0'

theorem encodeByte_length (c : Char) (h : c.toNat ≤ 255) : (encodeByte c).length = 2 := by
  unfold encodeByte padStart
  have hle : (natToBaseChars 16 c.toNat).length ≤ 2 :=
    natToBaseChars_length_le 16 (by omega) c.toNat 2 (by omega) (by omega)
  simp only [List.length_append, List.length_replicate]
  omega

theorem encodeByte_valid (c : Char) :
    ∀ x ∈ encodeByte c, (hexDigitVal x).isSome = true := by
  intro x hx
  unfold encodeByte padStart at hx
  rcases List.mem_append.mp hx with h | h
  · rcases List.mem_replicate.mp h with ⟨-, rfl⟩
    decide
  · exact mem_natToBaseChars16_hex c.toNat x h

theorem encodeByte_ne_nil (c : Char) : encodeByte c ≠ [] := by
  unfold encodeByte padStart
  intro h
  rcases List.append_eq_nil.mp h with ⟨-, h2⟩
  exact natToBaseChars_ne_nil 16 c.toNat (by omega) h2

theorem decodeByte_encodeByte (c : Char) :
    fromCharCodeJs (parseIntHex (encodeByte c)) = c := by
  rw [parseIntHex_valid _ (encodeByte_ne_nil c) (encodeByte_valid c)]
  have hval : baseFoldVal 16 hexVal (encodeByte c) = c.toNat := by
    unfold encodeByte
    rw [baseFoldVal_padStart 16 hexVal '0' (by decide),
      baseFoldVal_natToBaseChars 16 (by omega) hexVal hexVal_digitChar]
  rw [hval]
  unfold fromCharCodeJs
  simp only [Option.getD_some]
  exact Char.ofNat_toNat c

theorem chunkPairs_concatAll (L : List (List Char)) (h : ∀ x ∈ L, x.length = 2) :
    chunkPairs (concatAll L) = L := by
  induction L with
  | nil => rfl
  | cons x rest ih =>
    have hx : x.length = 2 := h x (List.mem_cons_self x rest)
    match x, hx with
    | [a, b], _ =>
      have : concatAll ([a, b] :: rest) = a :: b :: concatAll rest := rfl
      rw [this]
      unfold chunkPairs
      rw [ih (fun y hy => h y (List.mem_cons_of_mem _ hy))]

/-- C9: for strings not starting with `0x` whose characters are single-byte
code points, `hexToString (stringToHex s)` recovers `s`; and `stringToHex`
returns any `0x`-prefixed input unchanged. -/
theorem hex_encode_decode_roundtrip :
    (∀ s : List Char, startsWith0x s = false → (∀ c ∈ s, c.toNat ≤ 255) →
      hexToString (stringToHex s) = Except.ok s) ∧
    (∀ s : List Char, startsWith0x s = true → stringToHex s = s) := by
  constructor
  · intro s hpre hbytes
    have henc : stringToHex s = '0' :: 'x' :: concatAll (s.map encodeByte) := by
      unfold stringToHex
      rw [if_neg (by rw [hpre]; exact Bool.false_ne_true)]
      rfl
    rw [henc]
    unfold hexToString
    rw [if_neg (by simp [startsWith0x])]
    have hdrop : ('0' :: 'x' :: concatAll (s.map encodeByte)).drop 2
        = concatAll (s.map encodeByte) := rfl
    rw [hdrop,
      chunkPairs_concatAll (s.map encodeByte) (by
        intro x hx
        obtain ⟨c, hc, rfl⟩ := List.mem_map.mp hx
        exact encodeByte_length c (hbytes c hc))]
    congr 1
    rw [List.map_map]
    have h2 : ∀ c ∈ s,
        ((fun byte => fromCharCodeJs (parseIntHex byte)) ∘ encodeByte) c = id c := by
      intro c hc
      simp only [Function.comp_apply, id_eq]
      exact decodeByte_encodeByte c
    rw [List.map_congr_left h2, List.map_id]
  · intro s hpre
    unfold stringToHex
    rw [if_pos hpre]

/-! ## Address parsing (src/utils/devtools.ts) -/

/-- Hex digit class accepted by the address regexes. -/
def isHexDigitJs (c : Char) : Bool :=
  c.isDigit || ('a' ≤ c && c ≤ 'f') || ('A' ≤ c && c ≤ 'F')

/-- The case-insensitive regex over `0x` followed by forty hex digits: with
the `i` flag the literal `0x` also matches `0X`. -/
def addressRegex0x : List Char → Bool
  | c0 :: c1 :: rest =>
    c0 == '0' && (c1 == 'x' || c1 == 'X') && rest.length == 40 && rest.all isHexDigitJs
  | _ => false

/-- The regex over forty bare hex digits. -/
def addressRegexBare (s : List Char) : Bool :=
  s.length == 40 && s.all isHexDigitJs

/-- The `"address"` branch of `parseInputValue(input, type)` from
src/utils/devtools.ts (the only branch the claim concerns). -/
def parseInputValueAddress (input : List Char) : Except String (List Char) :=
  let trimmed := jsTrim input
  if addressRegex0x trimmed = false ∧ addressRegexBare trimmed = false then
    Except.error "Invalid address format (expected 40 hex chars)"
  else Except.ok (if startsWith0x trimmed then trimmed else '0' :: 'x' :: trimmed)

/-- `isValidAddress(address)` from src/utils/devtools.ts (the same
case-insensitive regex as the first pattern of the address branch). -/
def isValidAddress (address : List Char) : Bool := addressRegex0x address

theorem bare_not_startsWith (t : List Char) (hb : addressRegexBare t = true) :
    startsWith0x t = false := by
  cases t with
  | nil => rfl
  | cons a u =>
    cases u with
    | nil => rfl
    | cons b v =>
      unfold startsWith0x
      unfold addressRegexBare at hb
      simp only [Bool.and_eq_true, List.all_eq_true] at hb
      by_cases hbx : b = 'x'
      · exfalso
        have hmem : isHexDigitJs b = true := hb.2 b (by simp)
        rw [hbx] at hmem
        exact absurd hmem (by decide)
      · simp [hbx]

/-- C10 counterexample: on the input `0X` followed by forty hex digits,
`parseInputValue(·, "address")` does not throw (the `i`-flagged regex accepts
the `0X` prefix) but `startsWith("0x")` is case sensitive, so another `0x` is
prepended and the result fails `isValidAddress` — refuting the claim that
every non-throwing result satisfies `isValidAddress`. -/
theorem parseInputValueAddress_claim_false :
    parseInputValueAddress ('0' :: 'X' :: List.replicate 40 'a')
      = Except.ok ('0' :: 'x' :: '0' :: 'X' :: List.replicate 40 'a') ∧
    isValidAddress ('0' :: 'x' :: '0' :: 'X' :: List.replicate 40 'a') = false := by
  constructor
  · rfl
  · rfl

/-- C10 amended: `parseInputValue(input, "address")` throws exactly when the
trimmed input matches neither the case-insensitive `0x`-prefixed forty-hex
pattern (which also accepts a `0X` prefix) nor forty bare hex digits; every
non-throwing result starts with `0x`; and the result satisfies
`isValidAddress` whenever the trimmed input does not begin with the literal
`0X` (in that corner case the function returns a 44-character string that
fails `isValidAddress`). -/
theorem parseInputValueAddress_spec (input : List Char) :
    ((∃ e, parseInputValueAddress input = Except.error e) ↔
      (addressRegex0x (jsTrim input) = false ∧ addressRegexBare (jsTrim input) = false)) ∧
    (∀ r, parseInputValueAddress input = Except.ok r → startsWith0x r = true) ∧
    (∀ r, parseInputValueAddress input = Except.ok r →
      (jsTrim input).take 2 ≠ ['0', 'X'] → isValidAddress r = true) := by
  refine ⟨⟨?_, ?_⟩, ?_, ?_⟩
  · intro he2
    obtain ⟨e, he⟩ := he2
    unfold parseInputValueAddress at he
    by_cases hcond : addressRegex0x (jsTrim input) = false ∧ addressRegexBare (jsTrim input) = false
    · exact hcond
    · rw [if_neg hcond] at he
      exact absurd he (by simp)
  · intro hcond
    refine ⟨"Invalid address format (expected 40 hex chars)", ?_⟩
    unfold parseInputValueAddress
    rw [if_pos hcond]
  · intro r hr
    unfold parseInputValueAddress at hr
    by_cases hcond : addressRegex0x (jsTrim input) = false ∧ addressRegexBare (jsTrim input) = false
    · rw [if_pos hcond] at hr
      exact absurd hr (by simp)
    · rw [if_neg hcond] at hr
      injection hr with hr
      subst hr
      by_cases hsw : startsWith0x (jsTrim input)
      · rw [if_pos hsw]
        exact hsw
      · rw [if_neg hsw]
        rfl
  · intro r hr hnX
    unfold parseInputValueAddress at hr
    by_cases hcond : addressRegex0x (jsTrim input) = false ∧ addressRegexBare (jsTrim input) = false
    · rw [if_pos hcond] at hr
      exact absurd hr (by simp)
    · rw [if_neg hcond] at hr
      injection hr with hr
      subst hr
      have hcase : addressRegex0x (jsTrim input) = true ∨ addressRegexBare (jsTrim input) = true := by
        rcases Bool.eq_false_or_eq_true (addressRegex0x (jsTrim input)) with h | h
        · exact Or.inl h
        · rcases Bool.eq_false_or_eq_true (addressRegexBare (jsTrim input)) with h2 | h2
          · exact Or.inr h2
          · exact absurd ⟨h, h2⟩ hcond
      by_cases hsw : startsWith0x (jsTrim input)
      · rw [if_pos hsw]
        rcases hcase with h | h
        · exact h
        · rw [bare_not_startsWith _ h] at hsw
          exact absurd hsw (by simp)
      · rw [if_neg hsw]
        rcases hcase with h | h
        · exfalso
          cases ht : jsTrim input with
          | nil => rw [ht] at h; simp [addressRegex0x] at h
          | cons a u =>
            cases u with
            | nil => rw [ht] at h; simp [addressRegex0x] at h
            | cons b v =>
              rw [ht] at h hsw hnX
              unfold addressRegex0x at h
              simp only [Bool.and_eq_true, beq_iff_eq, Bool.or_eq_true] at h
              obtain ⟨⟨⟨ha, hb⟩, -⟩, -⟩ := h
              subst ha
              rcases hb with rfl | rfl
              · exact hsw rfl
              · exact hnX rfl
        · unfold isValidAddress addressRegex0x
          unfold addressRegexBare at h
          simp only [Bool.and_eq_true] at h ⊢
          exact ⟨⟨⟨by decide, by decide⟩, h.1⟩, h.2⟩


/-! ### Concrete witnesses for the devtools claims -/

/-- Record returned by `convertEthUnits '0' wei`, used by the C8 witness. -/
def zeroUnitRecord : UnitRecord :=
  { eth := ['0'], finney := ['0'], szabo := ['0'], gwei := ['0'], mwei := ['0'],
    kwei := ['0'], wei := ['0'] }

theorem convertEthUnits_roundtrip_exact_witness :
    parseToWei (formatUnitValue 1 EthUnit.eth) EthUnit.eth = some 1 ∧
    parseToWei (unitField zeroUnitRecord EthUnit.gwei) EthUnit.gwei
      = parseToWei ['0'] EthUnit.wei :=
  ⟨convertEthUnits_roundtrip_exact.1 1 EthUnit.eth,
   convertEthUnits_roundtrip_exact.2 ['0'] EthUnit.wei zeroUnitRecord (by decide) EthUnit.gwei⟩

theorem hex_encode_decode_roundtrip_witness :
    hexToString (stringToHex ['h', 'i']) = Except.ok ['h', 'i'] ∧
    stringToHex ['0', 'x', 'a', 'b'] = ['0', 'x', 'a', 'b'] :=
  ⟨hex_encode_decode_roundtrip.1 ['h', 'i'] (by decide) (by decide),
   hex_encode_decode_roundtrip.2 ['0', 'x', 'a', 'b'] (by decide)⟩

theorem parseInputValueAddress_spec_witness :
    startsWith0x ('0' :: 'x' :: List.replicate 40 'a') = true ∧
    isValidAddress ('0' :: 'x' :: List.replicate 40 'a') = true :=
  ⟨(parseInputValueAddress_spec (List.replicate 40 'a')).2.1
      ('0' :: 'x' :: List.replicate 40 'a') rfl,
   (parseInputValueAddress_spec (List.replicate 40 'a')).2.2
      ('0' :: 'x' :: List.replicate 40 'a') rfl (by decide)⟩

/-! ## Part 2 — the indexing and synchronization engine

Modelled from the spec: the engine's Python sources (`src/indexer`,
`src/database`, `src/rpc`, `main.py`) are not present in this checkout, only
the README describing them, so the data model of spec section 3 and the
component contracts of sections 4 and 7 are embedded here from the spec's
words.  Hashes, addresses and byte blobs are abstract `Nat` identifiers;
`updated_at` of `SyncState` is omitted (the model has no clock). -/

/-- Block entity (spec section 3). -/
structure Block where
  chain_id : Nat
  number : Nat
  hash : Nat
  parent_hash : Nat
  timestamp : Nat
  miner : Nat
  gas_used : Nat
  gas_limit : Nat
  transaction_count : Nat
deriving DecidableEq, Repr

/-- Transaction entity; `sender` and `recipient` model `from` / `to`
(`recipient` is null for contract creation). -/
structure Transaction where
  chain_id : Nat
  hash : Nat
  block_number : Nat
  sender : Nat
  recipient : Option Nat
  value : Nat
  gas : Nat
  gas_price : Nat
  nonce : Nat
  input_data : Nat
deriving DecidableEq, Repr

/-- TransactionReceipt entity (`transaction_hash` is its unique key). -/
structure Receipt where
  transaction_hash : Nat
  status : Bool
  gas_used : Nat
  contract_address : Option Nat
  logs_bloom : Nat
deriving DecidableEq, Repr

/-- Log entity; `log_index` is unique within a transaction and `topics` is an
ordered sequence. -/
structure Log where
  chain_id : Nat
  transaction_hash : Nat
  log_index : Nat
  address : Nat
  topics : List Nat
  data : Nat
deriving DecidableEq, Repr

/-- Modelled from the spec: the relational store of the Storage Gateway.
Tables are rows in insertion order; `syncState` is the per-chain cursor table
(`getSyncState` reads the most recent row for a chain). -/
structure Storage where
  blocks : List Block
  transactions : List Transaction
  receipts : List Receipt
  logs : List Log
  syncState : List (Nat × Nat)
deriving DecidableEq, Repr

def emptyStorage : Storage :=
  { blocks := [], transactions := [], receipts := [], logs := [], syncState := [] }

/-- `getSyncState(chainId)`: the persisted `last_indexed_block`, 0 when the
chain has no row yet. -/
def getSyncState (st : Storage) (cid : Nat) : Nat :=
  match st.syncState.find? (fun p => p.1 == cid) with
  | some p => p.2
  | none => 0

/-- `setSyncState(chainId, blockNumber)`: upsert of the cursor row. -/
def setSyncState (st : Storage) (cid n : Nat) : Storage :=
  { st with syncState := (cid, n) :: st.syncState }

/-! ### Raw RPC payloads and the oracle -/

structure RawBlockHeader where
  number : Nat
  hash : Nat
  parent_hash : Nat
  timestamp : Nat
  miner : Nat
  gas_used : Nat
  gas_limit : Nat
deriving DecidableEq, Repr

structure RawTx where
  hash : Nat
  sender : Nat
  recipient : Option Nat
  value : Nat
  gas : Nat
  gas_price : Nat
  nonce : Nat
  input_data : Nat
deriving DecidableEq, Repr

structure RawReceipt where
  transaction_hash : Nat
  status : Bool
  gas_used : Nat
  contract_address : Option Nat
  logs_bloom : Nat
deriving DecidableEq, Repr

structure RawLogEntry where
  transaction_hash : Nat
  address : Nat
  topics : List Nat
  data : Nat
deriving DecidableEq, Repr

/-- Everything the per-block unit of work fetches for one block: header and
transactions, the receipt of each transaction (in transaction order), and the
block's logs. -/
structure RawPayload where
  header : RawBlockHeader
  txs : List RawTx
  receipts : List RawReceipt
  logs : List RawLogEntry
deriving DecidableEq, Repr

/-- Outcome of one RPC attempt for one block. -/
inductive RpcResult where
  | ok (p : RawPayload)
  | unavailable
  | malformed
deriving DecidableEq, Repr

/-- Modelled from the spec: the environment of one engine run.  `fetch n a`
is the result of attempt `a` (0-based) of the per-block fetch for block `n`
(`RpcUnavailable` is transient, so later attempts may differ); `writeOk n`
says whether storage is available when block `n`'s write unit is committed. -/
structure Oracle where
  fetch : Nat → Nat → RpcResult
  writeOk : Nat → Bool

/-- Bounded retry at the RPC boundary (spec sections 4.4 and 7): retry only on
`RpcUnavailable`, up to the remaining budget; returns the first other result
and the number of attempts used.  Exhaustion surfaces as `unavailable`. -/
def fetchWithRetry (f : Nat → RpcResult) : Nat → Nat → RpcResult × Nat
  | 0, used => (RpcResult.unavailable, used)
  | fuel + 1, used =>
    match f used with
    | RpcResult.unavailable => fetchWithRetry f fuel (used + 1)
    | r => (r, used + 1)

/-! ### Normalizer (spec section 4.2) -/

inductive NormErr where
  | blockMismatch
  | duplicateTxHash
  | receiptMismatch
  | unknownLogTx
deriving DecidableEq, Repr

/-- Logs of one transaction in fetch order, given consecutive `log_index`
values starting at `i` (ordering by `log_index` preserves fetch order). -/
def enumLogs (cid h : Nat) : Nat → List RawLogEntry → List Log
  | _, [] => []
  | i, e :: rest =>
    { chain_id := cid, transaction_hash := h, log_index := i, address := e.address,
      topics := e.topics, data := e.data } :: enumLogs cid h (i + 1) rest

/-- Modelled from the spec: pure normalization of a raw payload into the
canonical entities, validating the structural invariants (the block is the
one fetched, receipts pair up one-to-one with the block's transactions, every
log references a transaction of the block, transaction hashes are distinct)
and failing with `NormalizationError` otherwise. -/
def normalizeBlock (cid n : Nat) (p : RawPayload) :
    Except NormErr (Block × List Transaction × List Receipt × List Log) :=
  if p.header.number ≠ n then Except.error NormErr.blockMismatch
  else if ¬ (p.txs.map RawTx.hash).Nodup then Except.error NormErr.duplicateTxHash
  else if p.receipts.length ≠ p.txs.length then Except.error NormErr.receiptMismatch
  else if ¬ (p.txs.zip p.receipts).all
      (fun tr => tr.2.transaction_hash == tr.1.hash) then
    Except.error NormErr.receiptMismatch
  else if ¬ p.logs.all
      (fun l => p.txs.any (fun t => t.hash == l.transaction_hash)) then
    Except.error NormErr.unknownLogTx
  else
    Except.ok
      ({ chain_id := cid, number := n, hash := p.header.hash,
         parent_hash := p.header.parent_hash, timestamp := p.header.timestamp,
         miner := p.header.miner, gas_used := p.header.gas_used,
         gas_limit := p.header.gas_limit, transaction_count := p.txs.length },
       p.txs.map (fun t =>
         { chain_id := cid, hash := t.hash, block_number := n, sender := t.sender,
           recipient := t.recipient, value := t.value, gas := t.gas,
           gas_price := t.gas_price, nonce := t.nonce, input_data := t.input_data }),
       p.receipts.map (fun r =>
         { transaction_hash := r.transaction_hash, status := r.status,
           gas_used := r.gas_used, contract_address := r.contract_address,
           logs_bloom := r.logs_bloom }),
       p.txs.flatMap (fun t =>
         enumLogs cid t.hash 0 (p.logs.filter (fun l => l.transaction_hash == t.hash))))

/-! ### Storage Gateway (spec section 4.3) -/

inductive StorageErr where
  | duplicateKey
  | storageUnavailable
deriving DecidableEq, Repr

/-- Modelled from the spec: `upsertBlock(block, transactions, receipts, logs)`
writes the full write unit atomically — either every row becomes visible or
an error is returned and the store is untouched (functional rollback).
`DuplicateKey` enforces the uniqueness constraints of spec section 3: block
`number` unique per chain, and `transaction_hash` unique (receipts are keyed
by `transaction_hash` alone, so the hash is unique across the store).
`avail` is the storage availability at this write. -/
def upsertBlock (avail : Bool) (st : Storage) (b : Block) (txs : List Transaction)
    (rcpts : List Receipt) (lgs : List Log) : Except StorageErr Storage :=
  if st.blocks.any (fun bb => bb.chain_id == b.chain_id && bb.number == b.number) then
    Except.error StorageErr.duplicateKey
  else if txs.any (fun t => st.transactions.any (fun u => u.hash == t.hash)) then
    Except.error StorageErr.duplicateKey
  else if avail = false then Except.error StorageErr.storageUnavailable
  else
    Except.ok
      { st with
        blocks := st.blocks ++ [b]
        transactions := st.transactions ++ txs
        receipts := st.receipts ++ rcpts
        logs := st.logs ++ lgs }

/-- Query of a block's transactions (reads respect insertion order). -/
def txsOfBlock (st : Storage) (b : Block) : List Transaction :=
  st.transactions.filter (fun t => t.chain_id == b.chain_id && t.block_number == b.number)

/-- Query of a transaction's receipt rows. -/
def receiptsOfTx (st : Storage) (h : Nat) : List Receipt :=
  st.receipts.filter (fun r => r.transaction_hash == h)

/-- Query of a transaction's logs, in storage order (which the invariants
below show is ascending `log_index` order). -/
def getTransactionLogs (st : Storage) (h : Nat) : List Log :=
  st.logs.filter (fun l => l.transaction_hash == h)

/-- A block row together with its full set of owned rows: the number of its
transaction rows matches `transaction_count`, every one of its transactions
has exactly one receipt, and its logs carry exactly the `log_index` values
`0, …, k-1` in order. -/
def blockComplete (st : Storage) (b : Block) : Prop :=
  (txsOfBlock st b).length = b.transaction_count ∧
  ∀ t ∈ txsOfBlock st b,
    (receiptsOfTx st t.hash).length = 1 ∧
    (getTransactionLogs st t.hash).map Log.log_index
      = List.range (getTransactionLogs st t.hash).length

/-! ### Indexing Engine (spec section 4.4) -/

inductive EngineErr where
  | rpcMalformed
  | normalization
  | rpcUnavailable
  | storageUnavailable
deriving DecidableEq, Repr

/-- Running state of one backfill / poll range: the store, the recorded gaps
(blocks skipped on data-integrity failures), the errors surfaced to the
operator, the fetch trace (block number and RPC attempts used, one entry per
processed block), and whether the range was halted. -/
structure RunState where
  storage : Storage
  gaps : List Nat
  surfaced : List (Nat × EngineErr)
  trace : List (Nat × Nat)
  halted : Bool
deriving DecidableEq, Repr

def initRun (st : Storage) : RunState :=
  { storage := st, gaps := [], surfaced := [], trace := [], halted := false }

/-- Modelled from the spec: the per-block unit of work (spec sections 4.4 and
7).  Fetch with bounded retry, normalize, write atomically, then advance the
cursor — only after a successful write, and never backwards.  `DuplicateKey`
is swallowed as "already indexed"; `RpcMalformed` / `NormalizationError` skip
the block with a recorded gap and a surfaced error; exhausted retries and
storage unavailability surface the error and halt the range. -/
def stepBlock (o : Oracle) (maxA cid : Nat) (rs : RunState) (n : Nat) : RunState :=
  if rs.halted then rs
  else
    match fetchWithRetry (o.fetch n) maxA 0 with
    | (RpcResult.unavailable, used) =>
      { rs with
        trace := rs.trace ++ [(n, used)]
        surfaced := rs.surfaced ++ [(n, EngineErr.rpcUnavailable)]
        halted := true }
    | (RpcResult.malformed, used) =>
      { rs with
        trace := rs.trace ++ [(n, used)]
        gaps := rs.gaps ++ [n]
        surfaced := rs.surfaced ++ [(n, EngineErr.rpcMalformed)] }
    | (RpcResult.ok p, used) =>
      let rs1 := { rs with trace := rs.trace ++ [(n, used)] }
      match normalizeBlock cid n p with
      | Except.error _ =>
        { rs1 with
          gaps := rs1.gaps ++ [n]
          surfaced := rs1.surfaced ++ [(n, EngineErr.normalization)] }
      | Except.ok (b, txs, rcpts, lgs) =>
        match upsertBlock (o.writeOk n) rs1.storage b txs rcpts lgs with
        | Except.error StorageErr.duplicateKey => rs1
        | Except.error StorageErr.storageUnavailable =>
          { rs1 with
            surfaced := rs1.surfaced ++ [(n, EngineErr.storageUnavailable)]
            halted := true }
        | Except.ok st2 =>
          { rs1 with storage := setSyncState st2 cid (max (getSyncState st2 cid) n) }

/-- Process a list of block numbers in order with the per-block unit of work. -/
def indexBlocks (o : Oracle) (maxA cid : Nat) (ns : List Nat) (rs : RunState) : RunState :=
  ns.foldl (stepBlock o maxA cid) rs

/-- Modelled from the spec: one-shot backfill of the explicit inclusive range
`[a, b]`, ascending. -/
def indexRange (o : Oracle) (maxA cid a b : Nat) (st : Storage) : RunState :=
  indexBlocks o maxA cid (List.range' a (b + 1 - a)) (initRun st)

/-- Catch up from the persisted cursor to the current head. -/
def catchUp (o : Oracle) (maxA cid headN : Nat) (st : Storage) : RunState :=
  indexRange o maxA cid (getSyncState st cid + 1) headN st

/-- Modelled from the spec: one cycle of the continuous polling loop — query
the chain head, and index the delta range when the head is above the cursor,
otherwise do nothing until the next sleep. -/
def pollCycle (o : Oracle) (maxA cid headN : Nat) (st : Storage) : RunState :=
  if getSyncState st cid < headN then catchUp o maxA cid headN st else initRun st

/-- Modelled from the spec: the status query (spec section 4.4). -/
structure SyncStatus where
  chainId : Nat
  lastIndexedBlock : Nat
  currentHead : Nat
  blocksBehind : Nat
  percentSynced : Nat
deriving DecidableEq, Repr

def statusQuery (st : Storage) (cid headN : Nat) : SyncStatus :=
  let last := getSyncState st cid
  { chainId := cid, lastIndexedBlock := last, currentHead := headN,
    blocksBehind := headN - last,
    percentSynced := if headN = 0 then 0 else min 100 (last * 100 / headN) }

/-- Storage states reachable by engine activity from an empty store: any
sequence of backfills and poll cycles, against arbitrary RPC behaviour. -/
inductive Reachable : Storage → Prop where
  | init : Reachable emptyStorage
  | backfill (o : Oracle) (maxA cid a b : Nat) {st : Storage} :
      Reachable st → Reachable (indexRange o maxA cid a b st).storage
  | poll (o : Oracle) (maxA cid headN : Nat) {st : Storage} :
      Reachable st → Reachable (pollCycle o maxA cid headN st).storage

/-! ### Basic lemmas about the gateway operations -/

theorem setSyncState_blocks (st : Storage) (cid n : Nat) :
    (setSyncState st cid n).blocks = st.blocks := rfl

theorem setSyncState_transactions (st : Storage) (cid n : Nat) :
    (setSyncState st cid n).transactions = st.transactions := rfl

theorem setSyncState_receipts (st : Storage) (cid n : Nat) :
    (setSyncState st cid n).receipts = st.receipts := rfl

theorem setSyncState_logs (st : Storage) (cid n : Nat) :
    (setSyncState st cid n).logs = st.logs := rfl

theorem getSyncState_setSyncState (st : Storage) (cid n cid2 : Nat) :
    getSyncState (setSyncState st cid n) cid2
      = if cid2 = cid then n else getSyncState st cid2 := by
  unfold getSyncState setSyncState
  by_cases h : cid2 = cid
  · subst h
    rw [List.find?_cons_of_pos _ (by simp), if_pos rfl]
  · rw [List.find?_cons_of_neg _ (by simp; omega), if_neg h]

theorem upsertBlock_ok {avail : Bool} {st : Storage} {b : Block}
    {txs : List Transaction} {rcpts : List Receipt} {lgs : List Log} {st2 : Storage}
    (h : upsertBlock avail st b txs rcpts lgs = Except.ok st2) :
    st2.blocks = st.blocks ++ [b] ∧ st2.transactions = st.transactions ++ txs ∧
    st2.receipts = st.receipts ++ rcpts ∧ st2.logs = st.logs ++ lgs ∧
    st2.syncState = st.syncState ∧
    (∀ bb ∈ st.blocks, ¬ (bb.chain_id = b.chain_id ∧ bb.number = b.number)) ∧
    (∀ t ∈ txs, ∀ u ∈ st.transactions, u.hash ≠ t.hash) := by
  unfold upsertBlock at h
  split at h
  next => exact absurd h (by simp)
  next h1 =>
    split at h
    next => exact absurd h (by simp)
    next h2 =>
      split at h
      next => exact absurd h (by simp)
      next =>
        injection h with h
        subst h
        refine ⟨rfl, rfl, rfl, rfl, rfl, ?_, ?_⟩
        · intro bb hbb hcontra
          apply h1
          simp only [List.any_eq_true]
          exact ⟨bb, hbb, by simp [hcontra.1, hcontra.2]⟩
        · intro t ht u hu hcontra
          apply h2
          simp only [List.any_eq_true]
          exact ⟨t, ht, ⟨u, hu, by simp [hcontra]⟩⟩

/-! ### Shape of a normalized write unit -/

structure UnitShape (cid n : Nat) (b : Block) (txs : List Transaction)
    (rcpts : List Receipt) (lgs : List Log) : Prop where
  bcid : b.chain_id = cid
  bnum : b.number = n
  bcount : b.transaction_count = txs.length
  tcid : ∀ t ∈ txs, t.chain_id = cid
  tblk : ∀ t ∈ txs, t.block_number = n
  thNodup : (txs.map Transaction.hash).Nodup
  rhashes : rcpts.map Receipt.transaction_hash = txs.map Transaction.hash
  lhash : ∀ l ∈ lgs, l.transaction_hash ∈ txs.map Transaction.hash
  lfilter : ∀ t ∈ txs,
    (lgs.filter (fun l => l.transaction_hash == t.hash)).map Log.log_index
      = List.range (lgs.filter (fun l => l.transaction_hash == t.hash)).length

theorem enumLogs_hash (cid h : Nat) :
    ∀ (i : Nat) (es : List RawLogEntry), ∀ lg ∈ enumLogs cid h i es,
      lg.transaction_hash = h := by
  intro i es
  induction es generalizing i with
  | nil => intro lg hlg; simp [enumLogs] at hlg
  | cons e rest ih =>
    intro lg hlg
    rcases List.mem_cons.mp hlg with rfl | hmem
    · rfl
    · exact ih (i + 1) lg hmem

theorem enumLogs_map_index (cid h : Nat) :
    ∀ (i : Nat) (es : List RawLogEntry),
      (enumLogs cid h i es).map Log.log_index = List.range' i es.length := by
  intro i es
  induction es generalizing i with
  | nil => rfl
  | cons e rest ih =>
    simp only [enumLogs, List.map_cons, List.length_cons, List.range'_succ]
    rw [ih (i + 1)]

theorem enumLogs_length (cid h : Nat) :
    ∀ (i : Nat) (es : List RawLogEntry), (enumLogs cid h i es).length = es.length := by
  intro i es
  induction es generalizing i with
  | nil => rfl
  | cons e rest ih =>
    simp only [enumLogs, List.length_cons]
    rw [ih (i + 1)]

theorem filter_flatMap_groups {α : Type} (G : α → List Log) (q : Log → Bool) :
    ∀ l : List α, (l.flatMap G).filter q = l.flatMap (fun x => (G x).filter q) := by
  intro l
  induction l with
  | nil => rfl
  | cons x rest ih =>
    simp only [List.flatMap_cons, List.filter_append, ih]

theorem filter_eq_self_of_all {α : Type} (p : α → Bool) (l : List α)
    (h : ∀ x ∈ l, p x = true) : l.filter p = l := by
  induction l with
  | nil => rfl
  | cons a t ih =>
    rw [List.filter_cons_of_pos (h a (List.mem_cons_self a t))]
    rw [ih (fun x hx => h x (List.mem_cons_of_mem a hx))]

theorem filter_eq_nil_of_none {α : Type} (p : α → Bool) (l : List α)
    (h : ∀ x ∈ l, p x = false) : l.filter p = [] := by
  induction l with
  | nil => rfl
  | cons a t ih =>
    rw [List.filter_cons_of_neg (by simp [h a (List.mem_cons_self a t)])]
    exact ih (fun x hx => h x (List.mem_cons_of_mem a hx))

theorem countP_eq_one_of_nodup {l : List Nat} (hnd : l.Nodup) {x : Nat} (hx : x ∈ l) :
    l.countP (fun y => y == x) = 1 := by
  induction l with
  | nil => simp at hx
  | cons a t ih =>
    rw [List.countP_cons]
    rcases List.mem_cons.mp hx with rfl | hmem
    · have hnotin : x ∉ t := (List.nodup_cons.mp hnd).1
      have ht0 : t.countP (fun y => y == x) = 0 := by
        rw [List.countP_eq_zero]
        intro y hy
        simp only [beq_iff_eq]
        intro heq
        subst heq
        exact hnotin hy
      simp [ht0]
    · have hax : a ≠ x := by
        intro heq
        subst heq
        exact (List.nodup_cons.mp hnd).1 hmem
      rw [ih (List.nodup_cons.mp hnd).2 hmem]
      simp [hax]

/-- Filtering the concatenated per-transaction log groups by one transaction
hash picks exactly that transaction's group. -/
theorem flatMap_filter_single (txs : List RawTx) (G : RawTx → List Log)
    (hG : ∀ t2 : RawTx, ∀ lg ∈ G t2, lg.transaction_hash = t2.hash) :
    ∀ (t : RawTx), (txs.map RawTx.hash).Nodup → t ∈ txs →
      (txs.flatMap G).filter (fun lg => lg.transaction_hash == t.hash) = G t := by
  induction txs with
  | nil => intro t _ ht; simp at ht
  | cons t2 rest ih =>
    intro t hnd ht
    rw [filter_flatMap_groups]
    simp only [List.flatMap_cons]
    by_cases hh : t2.hash = t.hash
    · have hteq : t = t2 := by
        rcases List.mem_cons.mp ht with rfl | hmem
        · rfl
        · exfalso
          have hin : t.hash ∈ rest.map RawTx.hash := List.mem_map.mpr ⟨t, hmem, rfl⟩
          have hnd2 := hnd
          rw [List.map_cons, List.nodup_cons] at hnd2
          have := hnd2.1
          rw [hh] at this
          exact this hin
      subst hteq
      have hself : (G t).filter (fun lg => lg.transaction_hash == t.hash) = G t :=
        filter_eq_self_of_all _ _ (fun lg hlg => by simp [hG t lg hlg])
      have hrest : rest.flatMap (fun x => (G x).filter
          (fun lg => lg.transaction_hash == t.hash)) = [] := by
        rw [List.flatMap_eq_nil_iff]
        intro t3 ht3
        apply filter_eq_nil_of_none
        intro lg hlg
        rw [hG t3 lg hlg]
        have h3 : t3.hash ≠ t.hash := by
          intro heq
          have hin : t3.hash ∈ rest.map RawTx.hash := List.mem_map.mpr ⟨t3, ht3, rfl⟩
          have hnd2 := hnd
          rw [List.map_cons, List.nodup_cons] at hnd2
          rw [heq] at hin
          exact hnd2.1 hin
        simp [h3]
      rw [hself, hrest]
      simp
    · have hmem : t ∈ rest := by
        rcases List.mem_cons.mp ht with rfl | hmem
        · exact absurd rfl hh
        · exact hmem
      have hhead : (G t2).filter (fun lg => lg.transaction_hash == t.hash) = [] := by
        apply filter_eq_nil_of_none
        intro lg hlg
        rw [hG t2 lg hlg]
        simp [hh]
      rw [hhead]
      have hndrest : (rest.map RawTx.hash).Nodup := by
        have hnd2 := hnd
        rw [List.map_cons, List.nodup_cons] at hnd2
        exact hnd2.2
      have := ih t hndrest hmem
      rw [filter_flatMap_groups] at this
      simpa using this

theorem zip_all_receipt_hashes :
    ∀ (xs : List RawTx) (ys : List RawReceipt), ys.length = xs.length →
      ((xs.zip ys).all fun tr => tr.2.transaction_hash == tr.1.hash) = true →
      ys.map RawReceipt.transaction_hash = xs.map RawTx.hash := by
  intro xs
  induction xs with
  | nil =>
    intro ys hlen _
    cases ys with
    | nil => rfl
    | cons y yt => simp at hlen
  | cons x xt ih =>
    intro ys hlen hall
    cases ys with
    | nil => simp at hlen
    | cons y yt =>
      simp only [List.zip_cons_cons, List.all_cons, Bool.and_eq_true, beq_iff_eq] at hall
      simp only [List.map_cons, hall.1]
      rw [ih yt (by simpa using hlen) hall.2]

theorem normalizeBlock_shape {cid n : Nat} {p : RawPayload} {b : Block}
    {txs : List Transaction} {rcpts : List Receipt} {lgs : List Log}
    (h : normalizeBlock cid n p = Except.ok (b, txs, rcpts, lgs)) :
    UnitShape cid n b txs rcpts lgs := by
  unfold normalizeBlock at h
  split at h
  next => exact absurd h (by simp)
  next h1 =>
    split at h
    next => exact absurd h (by simp)
    next h2 =>
      split at h
      next => exact absurd h (by simp)
      next h3 =>
        split at h
        next => exact absurd h (by simp)
        next h4 =>
          split at h
          next => exact absurd h (by simp)
          next h5 =>
            have hnd : (p.txs.map RawTx.hash).Nodup := not_not.mp h2
            have hlen : p.receipts.length = p.txs.length := not_not.mp h3
            have hzip : ((p.txs.zip p.receipts).all
                fun tr => tr.2.transaction_hash == tr.1.hash) = true := not_not.mp h4
            injection h with h
            simp only [Prod.mk.injEq] at h
            obtain ⟨hb, htx, hrc, hlg⟩ := h
            subst hb
            subst htx
            subst hrc
            subst hlg
            refine ⟨rfl, rfl, by simp, ?_, ?_, ?_, ?_, ?_, ?_⟩
            · intro t ht
              obtain ⟨rt, hrt, rfl⟩ := List.mem_map.mp ht
              rfl
            · intro t ht
              obtain ⟨rt, hrt, rfl⟩ := List.mem_map.mp ht
              rfl
            · rw [List.map_map]
              exact hnd
            · rw [List.map_map, List.map_map]
              exact zip_all_receipt_hashes p.txs p.receipts hlen hzip
            · intro l hl
              obtain ⟨rt, hrt, hin⟩ := List.mem_flatMap.mp hl
              have hh := enumLogs_hash cid rt.hash 0 _ l hin
              rw [List.map_map]
              exact List.mem_map.mpr ⟨rt, hrt, hh.symm⟩
            · intro t ht
              obtain ⟨rt, hrt, rfl⟩ := List.mem_map.mp ht
              have := flatMap_filter_single p.txs
                (fun rt2 => enumLogs cid rt2.hash 0
                  (p.logs.filter (fun l => l.transaction_hash == rt2.hash)))
                (fun rt2 lg hlg => enumLogs_hash cid rt2.hash 0 _ lg hlg)
                rt hnd hrt
              rw [this, enumLogs_map_index, enumLogs_length, List.range_eq_range']

/-! ### The storage invariant -/

/-- Structural invariant of reachable stores: unique block keys, globally
unique transaction hashes, every transaction / receipt / log row owned by a
block / transaction in the store, and every block complete. -/
structure Inv (st : Storage) : Prop where
  blocksNodup : (st.blocks.map (fun bb => (bb.chain_id, bb.number))).Nodup
  txsNodup : (st.transactions.map Transaction.hash).Nodup
  txOwned : ∀ t ∈ st.transactions, ∃ bb ∈ st.blocks,
    bb.chain_id = t.chain_id ∧ bb.number = t.block_number
  rcptOwned : ∀ r ∈ st.receipts, ∃ t ∈ st.transactions, t.hash = r.transaction_hash
  logOwned : ∀ l ∈ st.logs, ∃ t ∈ st.transactions, t.hash = l.transaction_hash
  complete : ∀ bb ∈ st.blocks, blockComplete st bb

theorem inv_empty : Inv emptyStorage := by
  constructor <;> simp [emptyStorage]

theorem upsert_preserves_inv {avail : Bool} {st : Storage} {b : Block}
    {txs : List Transaction} {rcpts : List Receipt} {lgs : List Log} {st2 : Storage}
    {cid n : Nat} (hinv : Inv st) (hsh : UnitShape cid n b txs rcpts lgs)
    (h : upsertBlock avail st b txs rcpts lgs = Except.ok st2) : Inv st2 := by
  obtain ⟨hB, hT, hR, hL, hS, hBF, hTF⟩ := upsertBlock_ok h
  -- freshness of the new transaction hashes relative to the old store
  have hTFresh : ∀ a : Nat, a ∈ txs.map Transaction.hash →
      a ∈ st.transactions.map Transaction.hash → False := by
    intro a ha1 ha2
    obtain ⟨x, hx, hxa⟩ := List.mem_map.mp ha1
    obtain ⟨u, hu, hua⟩ := List.mem_map.mp ha2
    exact hTF x hx u hu (by omega)
  -- the new transactions' receipt rows filter to nothing for old hashes
  have hNewRcptsNil : ∀ h0 : Nat, h0 ∉ txs.map Transaction.hash →
      rcpts.filter (fun r => r.transaction_hash == h0) = [] := by
    intro h0 hh0
    apply filter_eq_nil_of_none
    intro r hr
    rw [Bool.eq_false_iff]
    intro hpred
    rw [beq_iff_eq] at hpred
    apply hh0
    rw [← hpred, ← hsh.rhashes]
    exact List.mem_map.mpr ⟨r, hr, rfl⟩
  have hNewLogsNil : ∀ h0 : Nat, h0 ∉ txs.map Transaction.hash →
      lgs.filter (fun l => l.transaction_hash == h0) = [] := by
    intro h0 hh0
    apply filter_eq_nil_of_none
    intro l hl
    rw [Bool.eq_false_iff]
    intro hpred
    rw [beq_iff_eq] at hpred
    exact hh0 (hpred ▸ hsh.lhash l hl)
  have hOldRcptsNil : ∀ h0 : Nat, h0 ∈ txs.map Transaction.hash →
      st.receipts.filter (fun r => r.transaction_hash == h0) = [] := by
    intro h0 hh0
    apply filter_eq_nil_of_none
    intro r hr
    rw [Bool.eq_false_iff]
    intro hpred
    rw [beq_iff_eq] at hpred
    obtain ⟨u, hu, hur⟩ := hinv.rcptOwned r hr
    apply hTFresh h0 hh0
    exact List.mem_map.mpr ⟨u, hu, by omega⟩
  have hOldLogsNil : ∀ h0 : Nat, h0 ∈ txs.map Transaction.hash →
      st.logs.filter (fun l => l.transaction_hash == h0) = [] := by
    intro h0 hh0
    apply filter_eq_nil_of_none
    intro l hl
    rw [Bool.eq_false_iff]
    intro hpred
    rw [beq_iff_eq] at hpred
    obtain ⟨u, hu, hul⟩ := hinv.logOwned l hl
    apply hTFresh h0 hh0
    exact List.mem_map.mpr ⟨u, hu, by omega⟩
  constructor
  · -- block keys stay distinct
    rw [hB, List.map_append]
    refine List.Nodup.append hinv.blocksNodup (by simp) ?_
    intro k hk1 hk2
    simp only [List.map_cons, List.map_nil, List.mem_singleton] at hk2
    subst hk2
    obtain ⟨bb, hbb, hkey⟩ := List.mem_map.mp hk1
    simp only [Prod.mk.injEq] at hkey
    exact hBF bb hbb ⟨hkey.1, hkey.2⟩
  · -- transaction hashes stay distinct
    rw [hT, List.map_append]
    refine List.Nodup.append hinv.txsNodup hsh.thNodup ?_
    intro a ha1 ha2
    exact hTFresh a ha2 ha1
  · -- every transaction row is owned by a block row
    intro t ht
    rw [hT] at ht
    rcases List.mem_append.mp ht with hmem | hmem
    · obtain ⟨bb, hbb, hk⟩ := hinv.txOwned t hmem
      exact ⟨bb, by rw [hB]; exact List.mem_append_left _ hbb, hk⟩
    · refine ⟨b, by rw [hB]; exact List.mem_append_right _ (by simp), ?_, ?_⟩
      · rw [hsh.bcid, hsh.tcid t hmem]
      · rw [hsh.bnum, hsh.tblk t hmem]
  · -- every receipt row is owned by a transaction row
    intro r hr
    rw [hR] at hr
    rcases List.mem_append.mp hr with hmem | hmem
    · obtain ⟨u, hu, hur⟩ := hinv.rcptOwned r hmem
      exact ⟨u, by rw [hT]; exact List.mem_append_left _ hu, hur⟩
    · have : r.transaction_hash ∈ txs.map Transaction.hash := by
        rw [← hsh.rhashes]
        exact List.mem_map.mpr ⟨r, hmem, rfl⟩
      obtain ⟨u, hu, hur⟩ := List.mem_map.mp this
      exact ⟨u, by rw [hT]; exact List.mem_append_right _ hu, hur⟩
  · -- every log row is owned by a transaction row
    intro l hl
    rw [hL] at hl
    rcases List.mem_append.mp hl with hmem | hmem
    · obtain ⟨u, hu, hul⟩ := hinv.logOwned l hmem
      exact ⟨u, by rw [hT]; exact List.mem_append_left _ hu, hul⟩
    · obtain ⟨u, hu, hul⟩ := List.mem_map.mp (hsh.lhash l hmem)
      exact ⟨u, by rw [hT]; exact List.mem_append_right _ hu, hul⟩
  · -- every block row is complete
    intro bb hbb
    rw [hB] at hbb
    rcases List.mem_append.mp hbb with hold | hnew
    · -- an old block keeps exactly its old rows
      have hkey : ¬ (bb.chain_id = b.chain_id ∧ bb.number = b.number) := hBF bb hold
      have htx2 : txsOfBlock st2 bb = txsOfBlock st bb := by
        unfold txsOfBlock
        rw [hT, List.filter_append]
        have : txs.filter
            (fun t => t.chain_id == bb.chain_id && t.block_number == bb.number) = [] := by
          apply filter_eq_nil_of_none
          intro x hx
          rw [Bool.eq_false_iff]
          intro hpred
          rw [Bool.and_eq_true, beq_iff_eq, beq_iff_eq] at hpred
          have e1 := hsh.tcid x hx
          have e2 := hsh.tblk x hx
          have e3 := hsh.bcid
          have e4 := hsh.bnum
          exact hkey ⟨by omega, by omega⟩
        rw [this, List.append_nil]
      obtain ⟨hcnt, hrows⟩ := hinv.complete bb hold
      refine ⟨by rw [htx2]; exact hcnt, ?_⟩
      intro t ht
      rw [htx2] at ht
      have htold : t ∈ st.transactions := List.mem_of_mem_filter ht
      have hhash : t.hash ∉ txs.map Transaction.hash := by
        intro hmem
        exact hTFresh t.hash hmem (List.mem_map.mpr ⟨t, htold, rfl⟩)
      have hrc2 : receiptsOfTx st2 t.hash = receiptsOfTx st t.hash := by
        unfold receiptsOfTx
        rw [hR, List.filter_append, hNewRcptsNil t.hash hhash, List.append_nil]
      have hlg2 : getTransactionLogs st2 t.hash = getTransactionLogs st t.hash := by
        unfold getTransactionLogs
        rw [hL, List.filter_append, hNewLogsNil t.hash hhash, List.append_nil]
      obtain ⟨hrc, hlg⟩ := hrows t ht
      exact ⟨by rw [hrc2]; exact hrc, by rw [hlg2]; exact hlg⟩
    · -- the new block has exactly the unit's rows
      have hbbb : bb = b := by simpa using hnew
      subst hbbb
      have htx2 : txsOfBlock st2 bb = txs := by
        unfold txsOfBlock
        rw [hT, List.filter_append]
        have hold : st.transactions.filter
            (fun t => t.chain_id == bb.chain_id && t.block_number == bb.number) = [] := by
          apply filter_eq_nil_of_none
          intro x hx
          rw [Bool.eq_false_iff]
          intro hpred
          rw [Bool.and_eq_true, beq_iff_eq, beq_iff_eq] at hpred
          obtain ⟨b2, hb2, hk1, hk2⟩ := hinv.txOwned x hx
          exact hBF b2 hb2 ⟨by omega, by omega⟩
        have hnew2 : txs.filter
            (fun t => t.chain_id == bb.chain_id && t.block_number == bb.number) = txs := by
          apply filter_eq_self_of_all
          intro x hx
          have e1 := hsh.tcid x hx
          have e2 := hsh.tblk x hx
          have e3 := hsh.bcid
          have e4 := hsh.bnum
          rw [Bool.and_eq_true, beq_iff_eq, beq_iff_eq]
          exact ⟨by omega, by omega⟩
        rw [hold, hnew2, List.nil_append]
      refine ⟨by rw [htx2, hsh.bcount], ?_⟩
      intro t ht
      rw [htx2] at ht
      have hhash : t.hash ∈ txs.map Transaction.hash := List.mem_map.mpr ⟨t, ht, rfl⟩
      constructor
      · -- exactly one receipt
        unfold receiptsOfTx
        rw [hR, List.filter_append, hOldRcptsNil t.hash hhash, List.nil_append]
        rw [← List.countP_eq_length_filter]
        have hmapc : rcpts.countP (fun r => r.transaction_hash == t.hash)
            = (rcpts.map Receipt.transaction_hash).countP (fun h0 => h0 == t.hash) := by
          rw [List.countP_map]
          rfl
        rw [hmapc, hsh.rhashes]
        exact countP_eq_one_of_nodup hsh.thNodup hhash
      · -- logs carry exactly the indices 0, …, k-1
        have hlg2 : getTransactionLogs st2 t.hash
            = lgs.filter (fun l => l.transaction_hash == t.hash) := by
          unfold getTransactionLogs
          rw [hL, List.filter_append, hOldLogsNil t.hash hhash, List.nil_append]
        rw [hlg2]
        exact hsh.lfilter t ht

/-! ### Per-step lemmas about the unit of work -/

theorem getSyncState_congr {st1 st2 : Storage} (h : st1.syncState = st2.syncState)
    (cid : Nat) : getSyncState st1 cid = getSyncState st2 cid := by
  unfold getSyncState
  rw [h]

theorem stepBlock_halted_true {o : Oracle} {maxA cid : Nat} {rs : RunState} {n : Nat}
    (h : rs.halted = true) : stepBlock o maxA cid rs n = rs := by
  unfold stepBlock
  rw [if_pos h]

theorem stepBlock_storage_cases (o : Oracle) (maxA cid : Nat) (rs : RunState) (n : Nat) :
    (stepBlock o maxA cid rs n).storage = rs.storage ∨
    ∃ (b : Block) (txs : List Transaction) (rcpts : List Receipt) (lgs : List Log)
      (st2 : Storage),
      UnitShape cid n b txs rcpts lgs ∧
      upsertBlock (o.writeOk n) rs.storage b txs rcpts lgs = Except.ok st2 ∧
      (stepBlock o maxA cid rs n).storage
        = setSyncState st2 cid (max (getSyncState st2 cid) n) := by
  unfold stepBlock
  split
  · exact Or.inl rfl
  · split
    · exact Or.inl rfl
    · exact Or.inl rfl
    · next p used hfetch =>
      split
      · exact Or.inl rfl
      · next b txs rcpts lgs hnorm =>
        dsimp only
        split
        · exact Or.inl rfl
        · exact Or.inl rfl
        · next st2 hupsert =>
          exact Or.inr ⟨b, txs, rcpts, lgs, st2, normalizeBlock_shape hnorm, hupsert, rfl⟩

theorem stepBlock_trace_not_halted {o : Oracle} {maxA cid : Nat} {rs : RunState} {n : Nat}
    (h : rs.halted = false) :
    ∃ used, (stepBlock o maxA cid rs n).trace = rs.trace ++ [(n, used)] := by
  unfold stepBlock
  rw [if_neg (by simp [h])]
  split
  next used heq => exact ⟨used, rfl⟩
  next used heq => exact ⟨used, rfl⟩
  next p used heq =>
    dsimp only
    split
    · exact ⟨used, rfl⟩
    · split
      · exact ⟨used, rfl⟩
      · exact ⟨used, rfl⟩
      · exact ⟨used, rfl⟩

theorem stepBlock_trace_cases (o : Oracle) (maxA cid : Nat) (rs : RunState) (n : Nat) :
    (stepBlock o maxA cid rs n).trace = rs.trace ∨
    ∃ u, (stepBlock o maxA cid rs n).trace = rs.trace ++ [(n, u)] := by
  rcases Bool.eq_false_or_eq_true rs.halted with ht | hf
  · rw [stepBlock_halted_true ht]
    exact Or.inl rfl
  · exact Or.inr (stepBlock_trace_not_halted hf)

theorem stepBlock_gaps_cases (o : Oracle) (maxA cid : Nat) (rs : RunState) (n : Nat) :
    (stepBlock o maxA cid rs n).gaps = rs.gaps ∨
    (stepBlock o maxA cid rs n).gaps = rs.gaps ++ [n] := by
  unfold stepBlock
  split
  · exact Or.inl rfl
  · split
    · exact Or.inl rfl
    · exact Or.inr rfl
    · dsimp only
      split
      · exact Or.inr rfl
      · split
        · exact Or.inl rfl
        · exact Or.inl rfl
        · exact Or.inl rfl

theorem stepBlock_surfaced_cases (o : Oracle) (maxA cid : Nat) (rs : RunState) (n : Nat) :
    (stepBlock o maxA cid rs n).surfaced = rs.surfaced ∨
    ∃ e, (stepBlock o maxA cid rs n).surfaced = rs.surfaced ++ [(n, e)] := by
  unfold stepBlock
  split
  · exact Or.inl rfl
  · split
    · exact Or.inr ⟨EngineErr.rpcUnavailable, rfl⟩
    · exact Or.inr ⟨EngineErr.rpcMalformed, rfl⟩
    · dsimp only
      split
      · exact Or.inr ⟨EngineErr.normalization, rfl⟩
      · split
        · exact Or.inl rfl
        · exact Or.inr ⟨EngineErr.storageUnavailable, rfl⟩
        · exact Or.inl rfl

theorem stepBlock_cursor (o : Oracle) (maxA cid : Nat) (rs : RunState) (n cid2 : Nat) :
    getSyncState (stepBlock o maxA cid rs n).storage cid2 = getSyncState rs.storage cid2 ∨
    (cid2 = cid ∧
      getSyncState (stepBlock o maxA cid rs n).storage cid2
        = max (getSyncState rs.storage cid2) n ∧
      ∃ bb ∈ (stepBlock o maxA cid rs n).storage.blocks,
        bb.chain_id = cid2 ∧ bb.number = n) := by
  rcases stepBlock_storage_cases o maxA cid rs n with heq |
    ⟨b, txs, rcpts, lgs, st2, hsh, hup, heq⟩
  · rw [heq]
    exact Or.inl rfl
  · obtain ⟨hBl, -, -, -, hS, -, -⟩ := upsertBlock_ok hup
    have hget2 : getSyncState st2 cid2 = getSyncState rs.storage cid2 :=
      getSyncState_congr hS cid2
    by_cases hc : cid2 = cid
    · subst hc
      right
      refine ⟨rfl, ?_, ?_⟩
      · rw [heq, getSyncState_setSyncState, if_pos rfl, hget2]
      · refine ⟨b, ?_, hsh.bcid, hsh.bnum⟩
        rw [heq, setSyncState_blocks, hBl]
        exact List.mem_append_right _ (by simp)
    · left
      rw [heq, getSyncState_setSyncState, if_neg hc, getSyncState_congr hS cid2]

theorem stepBlock_cursor_mono (o : Oracle) (maxA cid : Nat) (rs : RunState) (n cid2 : Nat) :
    getSyncState rs.storage cid2 ≤ getSyncState (stepBlock o maxA cid rs n).storage cid2 := by
  rcases stepBlock_cursor o maxA cid rs n cid2 with h | ⟨-, h, -⟩
  · omega
  · rw [h]
    exact Nat.le_max_left _ _

theorem stepBlock_blocks_cases (o : Oracle) (maxA cid : Nat) (rs : RunState) (n : Nat) :
    (stepBlock o maxA cid rs n).storage.blocks = rs.storage.blocks ∨
    ∃ bb, (stepBlock o maxA cid rs n).storage.blocks = rs.storage.blocks ++ [bb] ∧
      bb.chain_id = cid ∧ bb.number = n := by
  rcases stepBlock_storage_cases o maxA cid rs n with heq |
    ⟨b, txs, rcpts, lgs, st2, hsh, hup, heq⟩
  · rw [heq]
    exact Or.inl rfl
  · obtain ⟨hBl, -, -, -, -, -, -⟩ := upsertBlock_ok hup
    right
    exact ⟨b, by rw [heq, setSyncState_blocks, hBl], hsh.bcid, hsh.bnum⟩

theorem inv_setSyncState {st : Storage} (hinv : Inv st) (cid n : Nat) :
    Inv (setSyncState st cid n) :=
  ⟨hinv.blocksNodup, hinv.txsNodup, hinv.txOwned, hinv.rcptOwned, hinv.logOwned,
   hinv.complete⟩

theorem stepBlock_inv {o : Oracle} {maxA cid : Nat} {rs : RunState} {n : Nat}
    (hinv : Inv rs.storage) : Inv (stepBlock o maxA cid rs n).storage := by
  rcases stepBlock_storage_cases o maxA cid rs n with heq |
    ⟨b, txs, rcpts, lgs, st2, hsh, hup, heq⟩
  · rw [heq]
    exact hinv
  · rw [heq]
    exact inv_setSyncState (upsert_preserves_inv hinv hsh hup) _ _

theorem stepBlock_halted_mono {o : Oracle} {maxA cid : Nat} {rs : RunState} {n : Nat}
    (h : (stepBlock o maxA cid rs n).halted = false) : rs.halted = false := by
  rcases Bool.eq_false_or_eq_true rs.halted with ht | hf
  · rw [stepBlock_halted_true ht] at h
    rw [h] at ht
    exact absurd ht (by simp)
  · exact hf

/-! ### Range-level lemmas -/

theorem indexBlocks_nil (o : Oracle) (maxA cid : Nat) (rs : RunState) :
    indexBlocks o maxA cid [] rs = rs := rfl

theorem indexBlocks_cons (o : Oracle) (maxA cid n : Nat) (rest : List Nat) (rs : RunState) :
    indexBlocks o maxA cid (n :: rest) rs
      = indexBlocks o maxA cid rest (stepBlock o maxA cid rs n) := rfl

theorem indexBlocks_append (o : Oracle) (maxA cid : Nat) (l1 l2 : List Nat) (rs : RunState) :
    indexBlocks o maxA cid (l1 ++ l2) rs
      = indexBlocks o maxA cid l2 (indexBlocks o maxA cid l1 rs) := by
  unfold indexBlocks
  exact List.foldl_append _ _ _ _

theorem indexBlocks_halted_true (o : Oracle) (maxA cid : Nat) :
    ∀ (ns : List Nat) (rs : RunState), rs.halted = true →
      indexBlocks o maxA cid ns rs = rs := by
  intro ns
  induction ns with
  | nil => intro rs _; rfl
  | cons n rest ih =>
    intro rs h
    rw [indexBlocks_cons, stepBlock_halted_true h]
    exact ih rs h

theorem indexBlocks_halted_mono {o : Oracle} {maxA cid : Nat} {ns : List Nat}
    {rs : RunState} (h : (indexBlocks o maxA cid ns rs).halted = false) :
    rs.halted = false := by
  rcases Bool.eq_false_or_eq_true rs.halted with ht | hf
  · rw [indexBlocks_halted_true o maxA cid ns rs ht] at h
    rw [h] at ht
    exact absurd ht (by simp)
  · exact hf

theorem indexBlocks_inv (o : Oracle) (maxA cid : Nat) :
    ∀ (ns : List Nat) (rs : RunState), Inv rs.storage →
      Inv (indexBlocks o maxA cid ns rs).storage := by
  intro ns
  induction ns with
  | nil => intro rs h; exact h
  | cons n rest ih =>
    intro rs h
    rw [indexBlocks_cons]
    exact ih _ (stepBlock_inv h)

theorem indexBlocks_cursor_mono (o : Oracle) (maxA cid : Nat) :
    ∀ (ns : List Nat) (rs : RunState) (cid2 : Nat),
      getSyncState rs.storage cid2
        ≤ getSyncState (indexBlocks o maxA cid ns rs).storage cid2 := by
  intro ns
  induction ns with
  | nil => intro rs cid2; exact Nat.le_refl _
  | cons n rest ih =>
    intro rs cid2
    rw [indexBlocks_cons]
    exact Nat.le_trans (stepBlock_cursor_mono o maxA cid rs n cid2) (ih _ cid2)

theorem indexBlocks_blocks_sub (o : Oracle) (maxA cid : Nat) :
    ∀ (ns : List Nat) (rs : RunState), ∀ bb ∈ rs.storage.blocks,
      bb ∈ (indexBlocks o maxA cid ns rs).storage.blocks := by
  intro ns
  induction ns with
  | nil => intro rs bb h; exact h
  | cons n rest ih =>
    intro rs bb h
    rw [indexBlocks_cons]
    apply ih
    rcases stepBlock_blocks_cases o maxA cid rs n with heq | ⟨b2, heq, -, -⟩
    · rw [heq]; exact h
    · rw [heq]; exact List.mem_append_left _ h

theorem indexBlocks_blocks_ext (o : Oracle) (maxA cid : Nat) :
    ∀ (ns : List Nat) (rs : RunState),
      ∃ ext, (indexBlocks o maxA cid ns rs).storage.blocks = rs.storage.blocks ++ ext ∧
        ∀ bb ∈ ext, bb.chain_id = cid ∧ bb.number ∈ ns := by
  intro ns
  induction ns with
  | nil => intro rs; exact ⟨[], by simp [indexBlocks_nil], by simp⟩
  | cons n rest ih =>
    intro rs
    rw [indexBlocks_cons]
    obtain ⟨ext, hext, hmem⟩ := ih (stepBlock o maxA cid rs n)
    rcases stepBlock_blocks_cases o maxA cid rs n with heq | ⟨b2, heq, hc, hn⟩
    · refine ⟨ext, by rw [hext, heq], ?_⟩
      intro bb hbb
      exact ⟨(hmem bb hbb).1, List.mem_cons_of_mem n (hmem bb hbb).2⟩
    · refine ⟨b2 :: ext, ?_, ?_⟩
      · rw [hext, heq, List.append_assoc]
        rfl
      · intro bb hbb
        rcases List.mem_cons.mp hbb with rfl | hm
        · exact ⟨hc, by rw [hn]; exact List.mem_cons_self n rest⟩
        · exact ⟨(hmem bb hm).1, List.mem_cons_of_mem n (hmem bb hm).2⟩

theorem indexBlocks_advance_commit (o : Oracle) (maxA cid : Nat) :
    ∀ (ns : List Nat) (rs : RunState) (cid2 : Nat),
      getSyncState rs.storage cid2
          < getSyncState (indexBlocks o maxA cid ns rs).storage cid2 →
      ∃ bb ∈ (indexBlocks o maxA cid ns rs).storage.blocks,
        bb.chain_id = cid2 ∧
        bb.number = getSyncState (indexBlocks o maxA cid ns rs).storage cid2 := by
  intro ns
  induction ns with
  | nil =>
    intro rs cid2 h
    rw [indexBlocks_nil] at h ⊢
    omega
  | cons n rest ih =>
    intro rs cid2 h
    rw [indexBlocks_cons] at h ⊢
    by_cases hlt : getSyncState (stepBlock o maxA cid rs n).storage cid2
        < getSyncState (indexBlocks o maxA cid rest (stepBlock o maxA cid rs n)).storage cid2
    · exact ih _ cid2 hlt
    · have hmono := indexBlocks_cursor_mono o maxA cid rest (stepBlock o maxA cid rs n) cid2
      have heqc : getSyncState (indexBlocks o maxA cid rest
          (stepBlock o maxA cid rs n)).storage cid2
          = getSyncState (stepBlock o maxA cid rs n).storage cid2 := by omega
      rcases stepBlock_cursor o maxA cid rs n cid2 with hsame | ⟨-, hmax, bb, hbb, hk1, hk2⟩
      · omega
      · have hstep_gt : getSyncState rs.storage cid2
            < getSyncState (stepBlock o maxA cid rs n).storage cid2 := by omega
        have hn : getSyncState (stepBlock o maxA cid rs n).storage cid2 = n := by
          rcases le_or_lt (getSyncState rs.storage cid2) n with hle | hgt
          · rw [hmax, Nat.max_eq_right hle]
          · rw [hmax, Nat.max_eq_left (by omega)] at hstep_gt
            omega

        refine ⟨bb, indexBlocks_blocks_sub o maxA cid rest _ bb hbb, hk1, ?_⟩
        rw [heqc, hn, hk2]

theorem indexBlocks_trace_ext (o : Oracle) (maxA cid : Nat) :
    ∀ (ns : List Nat) (rs : RunState),
      ∃ ext, (indexBlocks o maxA cid ns rs).trace = rs.trace ++ ext ∧
        ∀ e ∈ ext, e.1 ∈ ns := by
  intro ns
  induction ns with
  | nil => intro rs; exact ⟨[], by simp [indexBlocks_nil], by simp⟩
  | cons n rest ih =>
    intro rs
    rw [indexBlocks_cons]
    obtain ⟨ext, hext, hmem⟩ := ih (stepBlock o maxA cid rs n)
    rcases stepBlock_trace_cases o maxA cid rs n with h1 | ⟨u, h1⟩
    · refine ⟨ext, by rw [hext, h1], ?_⟩
      intro e he
      exact List.mem_cons_of_mem n (hmem e he)
    · refine ⟨(n, u) :: ext, ?_, ?_⟩
      · rw [hext, h1, List.append_assoc]
        rfl
      · intro e he
        rcases List.mem_cons.mp he with rfl | hm
        · simp
        · exact List.mem_cons_of_mem n (hmem e hm)

theorem indexBlocks_gaps_ext (o : Oracle) (maxA cid : Nat) :
    ∀ (ns : List Nat) (rs : RunState),
      ∃ ext, (indexBlocks o maxA cid ns rs).gaps = rs.gaps ++ ext ∧
        ∀ m ∈ ext, m ∈ ns := by
  intro ns
  induction ns with
  | nil => intro rs; exact ⟨[], by simp [indexBlocks_nil], by simp⟩
  | cons n rest ih =>
    intro rs
    rw [indexBlocks_cons]
    obtain ⟨ext, hext, hmem⟩ := ih (stepBlock o maxA cid rs n)
    rcases stepBlock_gaps_cases o maxA cid rs n with h1 | h1
    · refine ⟨ext, by rw [hext, h1], ?_⟩
      intro m hm
      exact List.mem_cons_of_mem n (hmem m hm)
    · refine ⟨n :: ext, ?_, ?_⟩
      · rw [hext, h1, List.append_assoc]
        rfl
      · intro m hm
        rcases List.mem_cons.mp hm with heq | hm2
        · rw [heq]
          exact List.mem_cons_self n rest
        · exact List.mem_cons_of_mem n (hmem m hm2)

theorem indexBlocks_surfaced_ext (o : Oracle) (maxA cid : Nat) :
    ∀ (ns : List Nat) (rs : RunState),
      ∃ ext, (indexBlocks o maxA cid ns rs).surfaced = rs.surfaced ++ ext ∧
        ∀ e ∈ ext, e.1 ∈ ns := by
  intro ns
  induction ns with
  | nil => intro rs; exact ⟨[], by simp [indexBlocks_nil], by simp⟩
  | cons n rest ih =>
    intro rs
    rw [indexBlocks_cons]
    obtain ⟨ext, hext, hmem⟩ := ih (stepBlock o maxA cid rs n)
    rcases stepBlock_surfaced_cases o maxA cid rs n with h1 | ⟨e2, h1⟩
    · refine ⟨ext, by rw [hext, h1], ?_⟩
      intro e he
      exact List.mem_cons_of_mem n (hmem e he)
    · refine ⟨(n, e2) :: ext, ?_, ?_⟩
      · rw [hext, h1, List.append_assoc]
        rfl
      · intro e he
        rcases List.mem_cons.mp he with rfl | hm
        · simp
        · exact List.mem_cons_of_mem n (hmem e hm)

theorem indexBlocks_trace_of_not_halted (o : Oracle) (maxA cid : Nat) :
    ∀ (ns : List Nat) (rs : RunState),
      (indexBlocks o maxA cid ns rs).halted = false →
      (indexBlocks o maxA cid ns rs).trace.map Prod.fst
        = rs.trace.map Prod.fst ++ ns := by
  intro ns
  induction ns with
  | nil => intro rs _; simp [indexBlocks_nil]
  | cons n rest ih =>
    intro rs h
    rw [indexBlocks_cons] at h ⊢
    have hrs1 : rs.halted = false :=
      stepBlock_halted_mono (indexBlocks_halted_mono h)
    obtain ⟨u, hu⟩ := @stepBlock_trace_not_halted o maxA cid rs n hrs1
    rw [ih _ h, hu]
    simp

/-! ### Specialized step lemmas -/

theorem fetchWithRetry_first (f : Nat → RpcResult) (k : Nat) (r : RpcResult)
    (hr : f 0 = r) (hne : r ≠ RpcResult.unavailable) :
    fetchWithRetry f (k + 1) 0 = (r, 1) := by
  unfold fetchWithRetry
  rw [hr]
  cases r with
  | ok p => rfl
  | unavailable => exact absurd rfl hne
  | malformed => rfl

/-- A data-integrity failure (`RpcMalformed` on the first attempt, or a
payload that fails normalization) is handled with exactly one fetch attempt:
the block is skipped with a recorded gap and a surfaced error, the store is
untouched and the range is not halted. -/
theorem stepBlock_data_integrity {o : Oracle} {maxA cid : Nat} {rs : RunState} {n : Nat}
    (h : rs.halted = false) (hmax : 0 < maxA)
    (hbad : o.fetch n 0 = RpcResult.malformed ∨
      ∃ p, o.fetch n 0 = RpcResult.ok p ∧ ∃ e, normalizeBlock cid n p = Except.error e) :
    ∃ e2, (e2 = EngineErr.rpcMalformed ∨ e2 = EngineErr.normalization) ∧
      stepBlock o maxA cid rs n =
        { rs with
          trace := rs.trace ++ [(n, 1)]
          gaps := rs.gaps ++ [n]
          surfaced := rs.surfaced ++ [(n, e2)] } := by
  obtain ⟨k, rfl⟩ : ∃ k, maxA = k + 1 := ⟨maxA - 1, by omega⟩
  rcases hbad with hmal | ⟨p, hok, e, hne⟩
  · refine ⟨EngineErr.rpcMalformed, Or.inl rfl, ?_⟩
    unfold stepBlock
    rw [if_neg (by simp [h]), fetchWithRetry_first _ _ _ hmal (by simp)]
  · refine ⟨EngineErr.normalization, Or.inr rfl, ?_⟩
    unfold stepBlock
    rw [if_neg (by simp [h]), fetchWithRetry_first _ _ _ hok (by simp)]
    dsimp only
    rw [hne]

/-- A block whose fetch and normalization succeed but whose chain/number key
is already present in the store raises `DuplicateKey`, which is swallowed:
the step only records the fetch attempt. -/
theorem stepBlock_duplicate {o : Oracle} {maxA cid : Nat} {rs : RunState} {n : Nat}
    (h : rs.halted = false) (hmax : 0 < maxA)
    {p : RawPayload} {b : Block} {txs : List Transaction} {rcpts : List Receipt}
    {lgs : List Log}
    (hok : o.fetch n 0 = RpcResult.ok p)
    (hnorm : normalizeBlock cid n p = Except.ok (b, txs, rcpts, lgs))
    (hdup : ∃ bb ∈ rs.storage.blocks, bb.chain_id = cid ∧ bb.number = n) :
    stepBlock o maxA cid rs n = { rs with trace := rs.trace ++ [(n, 1)] } := by
  obtain ⟨k, rfl⟩ : ∃ k, maxA = k + 1 := ⟨maxA - 1, by omega⟩
  have hsh := normalizeBlock_shape hnorm
  unfold stepBlock
  rw [if_neg (by simp [h]), fetchWithRetry_first _ _ _ hok (by simp)]
  dsimp only
  rw [hnorm]
  dsimp only
  have hdupkey : upsertBlock (o.writeOk n) rs.storage b txs rcpts lgs
      = Except.error StorageErr.duplicateKey := by
    unfold upsertBlock
    rw [if_pos]
    obtain ⟨bb, hbb, hc, hn⟩ := hdup
    simp only [List.any_eq_true]
    refine ⟨bb, hbb, ?_⟩
    rw [Bool.and_eq_true, beq_iff_eq, beq_iff_eq, hsh.bcid, hsh.bnum]
    exact ⟨hc, hn⟩
  rw [hdupkey]

theorem reachable_inv {st : Storage} (h : Reachable st) : Inv st := by
  induction h with
  | init => exact inv_empty
  | backfill o maxA cid a b hr ih => exact indexBlocks_inv o maxA cid _ _ ih
  | poll o maxA cid headN hr ih =>
    unfold pollCycle catchUp
    split
    · exact indexBlocks_inv o maxA cid _ _ ih
    · exact ih

/-- C1: the Storage Gateway writes each block's write unit atomically — either
`upsertBlock` returns a store extended with every row of the unit, or it
returns an error and, being a pure function, leaves the caller's store
unchanged (rollback) — and consequently in every reachable storage state
every visible Block row is complete: the full set of its Transaction,
Receipt and Log rows is visible with it, so a partial block is never
observable. -/
theorem upsertBlock_atomic_no_partial_blocks :
    (∀ (avail : Bool) (st : Storage) (b : Block) (txs : List Transaction)
        (rcpts : List Receipt) (lgs : List Log),
      (∃ st2, upsertBlock avail st b txs rcpts lgs = Except.ok st2 ∧
        st2.blocks = st.blocks ++ [b] ∧ st2.transactions = st.transactions ++ txs ∧
        st2.receipts = st.receipts ++ rcpts ∧ st2.logs = st.logs ++ lgs) ∨
      (∃ e, upsertBlock avail st b txs rcpts lgs = Except.error e)) ∧
    (∀ st : Storage, Reachable st → ∀ b ∈ st.blocks, blockComplete st b) := by
  constructor
  · intro avail st b txs rcpts lgs
    cases hres : upsertBlock avail st b txs rcpts lgs with
    | error e => exact Or.inr ⟨e, rfl⟩
    | ok st2 =>
      obtain ⟨h1, h2, h3, h4, -, -, -⟩ := upsertBlock_ok hres
      exact Or.inl ⟨st2, rfl, h1, h2, h3, h4⟩
  · intro st hr b hb
    exact (reachable_inv hr).complete b hb

/-- C2: the persisted `last_indexed_block` cursor is monotonically
non-decreasing across every engine step (backfill ranges and poll cycles, and
therefore across restarts, since the cursor lives only in storage); whenever
it advances, its new value is the number of a block whose write unit is
committed in the resulting store — so the cursor never moves forward past a
block that failed to write; and a catch-up poll resumes indexing exactly from
the persisted cursor plus one. -/
theorem cursor_monotone_resume (o : Oracle) (maxA cid a b headN : Nat) (st : Storage)
    (cid2 : Nat) :
    getSyncState st cid2 ≤ getSyncState (indexRange o maxA cid a b st).storage cid2 ∧
    getSyncState st cid2 ≤ getSyncState (pollCycle o maxA cid headN st).storage cid2 ∧
    (getSyncState st cid2 < getSyncState (indexRange o maxA cid a b st).storage cid2 →
      ∃ bb ∈ (indexRange o maxA cid a b st).storage.blocks,
        bb.chain_id = cid2 ∧
        bb.number = getSyncState (indexRange o maxA cid a b st).storage cid2) ∧
    (getSyncState st cid < headN →
      pollCycle o maxA cid headN st
        = indexRange o maxA cid (getSyncState st cid + 1) headN st) := by
  refine ⟨?_, ?_, ?_, ?_⟩
  · unfold indexRange
    exact indexBlocks_cursor_mono o maxA cid (List.range' a (b + 1 - a)) (initRun st) cid2
  · unfold pollCycle catchUp indexRange
    split
    · exact indexBlocks_cursor_mono o maxA cid _ (initRun st) cid2
    · exact Nat.le_refl _
  · unfold indexRange
    exact indexBlocks_advance_commit o maxA cid (List.range' a (b + 1 - a)) (initRun st) cid2
  · intro hlt
    unfold pollCycle catchUp
    rw [if_pos hlt]

/-- C3: re-running the engine over a block range that is already fully
indexed is a no-op: each block's fetch succeeds and its `DuplicateKey` is
caught and treated as a no-op, so the run creates zero new rows (the store is
unchanged), records no gaps, surfaces zero errors to the caller and does not
halt. -/
theorem reindex_idempotent (o : Oracle) (maxA cid a b : Nat) (st : Storage)
    (hmax : 0 < maxA)
    (hIndexed : ∀ n2, a ≤ n2 → n2 ≤ b →
      ∃ bb ∈ st.blocks, bb.chain_id = cid ∧ bb.number = n2)
    (hFetch : ∀ n2, a ≤ n2 → n2 ≤ b →
      ∃ (p : RawPayload) (b2 : Block) (txs : List Transaction) (rcpts : List Receipt)
        (lgs : List Log), o.fetch n2 0 = RpcResult.ok p ∧
        normalizeBlock cid n2 p = Except.ok (b2, txs, rcpts, lgs)) :
    (indexRange o maxA cid a b st).storage = st ∧
    (indexRange o maxA cid a b st).gaps = [] ∧
    (indexRange o maxA cid a b st).surfaced = [] ∧
    (indexRange o maxA cid a b st).halted = false := by
  have key : ∀ (ns : List Nat) (rs : RunState), rs.halted = false → rs.storage = st →
      (∀ n2 ∈ ns, a ≤ n2 ∧ n2 ≤ b) →
      (indexBlocks o maxA cid ns rs).storage = rs.storage ∧
      (indexBlocks o maxA cid ns rs).gaps = rs.gaps ∧
      (indexBlocks o maxA cid ns rs).surfaced = rs.surfaced ∧
      (indexBlocks o maxA cid ns rs).halted = false := by
    intro ns
    induction ns with
    | nil =>
      intro rs hh _ _
      exact ⟨rfl, rfl, rfl, hh⟩
    | cons n2 rest ih =>
      intro rs hh hst hmem
      obtain ⟨hA, hB⟩ := hmem n2 (List.mem_cons_self n2 rest)
      obtain ⟨p, b2, txs, rcpts, lgs, hok, hnorm⟩ := hFetch n2 hA hB
      have hdup : ∃ bb ∈ rs.storage.blocks, bb.chain_id = cid ∧ bb.number = n2 := by
        rw [hst]
        exact hIndexed n2 hA hB
      have hstep := @stepBlock_duplicate o maxA cid rs n2 hh hmax p b2 txs rcpts lgs
        hok hnorm hdup
      rw [indexBlocks_cons, hstep]
      exact ih { rs with trace := rs.trace ++ [(n2, 1)] } hh hst
        (fun m hm => hmem m (List.mem_cons_of_mem n2 hm))
  have hrange : ∀ n2 ∈ List.range' a (b + 1 - a), a ≤ n2 ∧ n2 ≤ b := by
    intro n2 hn2
    have := List.mem_range'_1.mp hn2
    omega
  unfold indexRange
  obtain ⟨h1, h2, h3, h4⟩ := key (List.range' a (b + 1 - a)) (initRun st) rfl rfl hrange
  exact ⟨h1, h2, h3, h4⟩

/-- C4 counterexample: when the chain head is 0 and the cursor is 0, the
status reports `lastIndexedBlock = currentHead` but the percentage is 0, not
100 — the claim's two requirements conflict at this corner. -/
theorem status_percent_claim_false :
    (statusQuery emptyStorage 1 0).lastIndexedBlock
        = (statusQuery emptyStorage 1 0).currentHead ∧
    (statusQuery emptyStorage 1 0).percentSynced ≠ 100 := by
  constructor
  · rfl
  · decide

/-- C4 amended: the status percentage equals
`floor(last_indexed_block * 100 / currentHead)` clamped to `[0, 100]`, is 0
when the head is 0, and is 100 when `last_indexed_block = currentHead` and
the head is positive (when both are 0 the head-is-0 rule wins and the
percentage is 0); the status also reports the cursor, the current head and
the blocks-behind count. -/
theorem status_percent_spec (st : Storage) (cid headN : Nat) :
    (statusQuery st cid headN).percentSynced
        = min 100 (if headN = 0 then 0
            else (statusQuery st cid headN).lastIndexedBlock * 100 / headN) ∧
    (headN = 0 → (statusQuery st cid headN).percentSynced = 0) ∧
    (0 < headN → getSyncState st cid = headN →
      (statusQuery st cid headN).percentSynced = 100) ∧
    (statusQuery st cid headN).lastIndexedBlock = getSyncState st cid ∧
    (statusQuery st cid headN).currentHead = headN ∧
    (statusQuery st cid headN).blocksBehind = headN - getSyncState st cid ∧
    (statusQuery st cid headN).percentSynced ≤ 100 := by
  refine ⟨?_, ?_, ?_, rfl, rfl, rfl, ?_⟩
  · unfold statusQuery
    by_cases h0 : headN = 0
    · simp [h0]
    · simp [h0]
  · intro h0
    unfold statusQuery
    simp [h0]
  · intro hpos heq
    unfold statusQuery
    dsimp only
    rw [if_neg (by omega), heq, Nat.mul_div_cancel_left 100 (by omega)]
    simp
  · unfold statusQuery
    by_cases h0 : headN = 0
    · simp [h0]
    · simp only [h0, if_false]
      exact Nat.min_le_left _ _

/-- C5: a data-integrity failure for one block of a multi-block range
(`RpcMalformed` on its first attempt, or a payload that fails normalization)
is never retried and does not abort the range: the block is fetched exactly
once, skipped with a recorded gap, its error is surfaced for operator
attention as fatal for that block only, no Block row for it is written, and
the engine proceeds with the remaining blocks of the range. -/
theorem data_integrity_skip (o : Oracle) (maxA cid a b n : Nat) (st : Storage)
    (hmax : 0 < maxA) (ha : a ≤ n) (hb : n ≤ b)
    (hreach : (indexBlocks o maxA cid (List.range' a (n - a)) (initRun st)).halted = false)
    (hbad : o.fetch n 0 = RpcResult.malformed ∨
      ∃ p, o.fetch n 0 = RpcResult.ok p ∧ ∃ e, normalizeBlock cid n p = Except.error e) :
    ((indexRange o maxA cid a b st).trace.filter (fun e2 => e2.1 == n)) = [(n, 1)] ∧
    n ∈ (indexRange o maxA cid a b st).gaps ∧
    (∃ e2, (n, e2) ∈ (indexRange o maxA cid a b st).surfaced ∧
      (e2 = EngineErr.rpcMalformed ∨ e2 = EngineErr.normalization)) ∧
    (indexRange o maxA cid a b st).storage.blocks.filter
        (fun bb => bb.chain_id == cid && bb.number == n)
      = st.blocks.filter (fun bb => bb.chain_id == cid && bb.number == n) ∧
    (indexBlocks o maxA cid (List.range' a (n + 1 - a)) (initRun st)).halted = false ∧
    (n < b → ∃ u, (n + 1, u) ∈ (indexRange o maxA cid a b st).trace) := by
  obtain ⟨e2, he2, hstep⟩ :=
    @stepBlock_data_integrity o maxA cid
      (indexBlocks o maxA cid (List.range' a (n - a)) (initRun st)) n hreach hmax hbad
  have hsplit1 : List.range' a (b + 1 - a)
      = List.range' a (n - a) ++ List.range' n (b + 1 - n) := by
    have happ := List.range'_append_1 a (n - a) (b + 1 - n)
    rw [show a + (n - a) = n by omega,
      show (b + 1 - n) + (n - a) = b + 1 - a by omega] at happ
    exact happ.symm
  have hsplit2 : List.range' n (b + 1 - n) = n :: List.range' (n + 1) (b - n) := by
    have h1 : b + 1 - n = (b - n) + 1 := by omega
    rw [h1, List.range'_succ]
  have hrun : indexRange o maxA cid a b st
      = indexBlocks o maxA cid (List.range' (n + 1) (b - n))
          (stepBlock o maxA cid
            (indexBlocks o maxA cid (List.range' a (n - a)) (initRun st)) n) := by
    unfold indexRange
    rw [hsplit1, indexBlocks_append, hsplit2, indexBlocks_cons]
  -- shorthand facts about the state just before and just after block n
  obtain ⟨ext0, htr0, hmem0⟩ :=
    indexBlocks_trace_ext o maxA cid (List.range' a (n - a)) (initRun st)
  obtain ⟨extB0, hbl0, hmemB0⟩ :=
    indexBlocks_blocks_ext o maxA cid (List.range' a (n - a)) (initRun st)
  obtain ⟨ext1, htr1, hmem1⟩ :=
    indexBlocks_trace_ext o maxA cid (List.range' (n + 1) (b - n))
      (stepBlock o maxA cid
        (indexBlocks o maxA cid (List.range' a (n - a)) (initRun st)) n)
  obtain ⟨extB1, hbl1, hmemB1⟩ :=
    indexBlocks_blocks_ext o maxA cid (List.range' (n + 1) (b - n))
      (stepBlock o maxA cid
        (indexBlocks o maxA cid (List.range' a (n - a)) (initRun st)) n)
  obtain ⟨extG, hg1, hmemG⟩ :=
    indexBlocks_gaps_ext o maxA cid (List.range' (n + 1) (b - n))
      (stepBlock o maxA cid
        (indexBlocks o maxA cid (List.range' a (n - a)) (initRun st)) n)
  obtain ⟨extS, hs1, hmemS⟩ :=
    indexBlocks_surfaced_ext o maxA cid (List.range' (n + 1) (b - n))
      (stepBlock o maxA cid
        (indexBlocks o maxA cid (List.range' a (n - a)) (initRun st)) n)
  have hext0_lt : ∀ e3 ∈ ext0, e3.1 < n := by
    intro e3 he3
    have := List.mem_range'_1.mp (hmem0 e3 he3)
    omega
  have hext1_gt : ∀ e3 ∈ ext1, n < e3.1 := by
    intro e3 he3
    have := List.mem_range'_1.mp (hmem1 e3 he3)
    omega
  refine ⟨?_, ?_, ?_, ?_, ?_, ?_⟩
  · -- exactly one fetch record for block n, with exactly one attempt
    rw [hrun, htr1, hstep]
    dsimp only
    rw [htr0]
    have hinit : (initRun st).trace = [] := rfl
    rw [hinit, List.nil_append, List.filter_append, List.filter_append]
    have hf0 : ext0.filter (fun e3 => e3.1 == n) = [] := by
      apply filter_eq_nil_of_none
      intro e3 he3
      rw [Bool.eq_false_iff]
      intro hpred
      rw [beq_iff_eq] at hpred
      have := hext0_lt e3 he3
      omega
    have hf1 : ext1.filter (fun e3 => e3.1 == n) = [] := by
      apply filter_eq_nil_of_none
      intro e3 he3
      rw [Bool.eq_false_iff]
      intro hpred
      rw [beq_iff_eq] at hpred
      have := hext1_gt e3 he3
      omega
    rw [hf0, hf1]
    simp
  · -- the gap is recorded
    rw [hrun, hg1, hstep]
    dsimp only
    refine List.mem_append_left _ (List.mem_append_right _ ?_)
    simp
  · -- the error is surfaced for this block
    refine ⟨e2, ?_, he2⟩
    rw [hrun, hs1, hstep]
    dsimp only
    refine List.mem_append_left _ (List.mem_append_right _ ?_)
    simp
  · -- no Block row for n is created
    rw [hrun, hbl1, hstep]
    dsimp only
    rw [hbl0]
    have hinit : (initRun st).storage.blocks = st.blocks := rfl
    rw [hinit, List.filter_append, List.filter_append]
    have hf0 : extB0.filter (fun bb => bb.chain_id == cid && bb.number == n) = [] := by
      apply filter_eq_nil_of_none
      intro bb hbb
      rw [Bool.eq_false_iff]
      intro hpred
      rw [Bool.and_eq_true, beq_iff_eq, beq_iff_eq] at hpred
      have := List.mem_range'_1.mp (hmemB0 bb hbb).2
      omega
    have hf1 : extB1.filter (fun bb => bb.chain_id == cid && bb.number == n) = [] := by
      apply filter_eq_nil_of_none
      intro bb hbb
      rw [Bool.eq_false_iff]
      intro hpred
      rw [Bool.and_eq_true, beq_iff_eq, beq_iff_eq] at hpred
      have := List.mem_range'_1.mp (hmemB1 bb hbb).2
      omega
    rw [hf0, hf1]
    simp
  · -- the range is not halted after block n
    have hsplit3 : List.range' a (n + 1 - a) = List.range' a (n - a) ++ [n] := by
      have happ := List.range'_append_1 a (n - a) 1
      rw [show a + (n - a) = n by omega, show 1 + (n - a) = n + 1 - a by omega,
        List.range'_one] at happ
      exact happ.symm
    rw [hsplit3, indexBlocks_append, indexBlocks_cons, indexBlocks_nil, hstep]
    exact hreach
  · -- the engine proceeds with the next block
    intro hlt
    have hsplit4 : List.range' (n + 1) (b - n)
        = (n + 1) :: List.range' (n + 2) (b - n - 1) := by
      have h1 := List.range'_succ (n + 1) (b - n - 1) 1
      rw [show b - n - 1 + 1 = b - n by omega] at h1
      exact h1
    have hAtHalted : (stepBlock o maxA cid
        (indexBlocks o maxA cid (List.range' a (n - a)) (initRun st)) n).halted
        = false := by
      rw [hstep]
      exact hreach
    obtain ⟨u, hu⟩ := @stepBlock_trace_not_halted o maxA cid
      (stepBlock o maxA cid
        (indexBlocks o maxA cid (List.range' a (n - a)) (initRun st)) n) (n + 1) hAtHalted
    obtain ⟨ext2, htr2, -⟩ :=
      indexBlocks_trace_ext o maxA cid (List.range' (n + 2) (b - n - 1))
        (stepBlock o maxA cid
          (stepBlock o maxA cid
            (indexBlocks o maxA cid (List.range' a (n - a)) (initRun st)) n) (n + 1))
    refine ⟨u, ?_⟩
    rw [hrun, hsplit4, indexBlocks_cons, htr2, hu]
    refine List.mem_append_left _ (List.mem_append_right _ ?_)
    simp

/-- C6: in every reachable storage state, the stored logs of every indexed
transaction carry `log_index` values that are exactly `0, …, k-1` in storage
order — so `log_index` is unique within the transaction — and querying the
transaction's logs returns them in ascending `log_index` order, preserving
the order in which they were fetched. -/
theorem transaction_logs_ascending (st : Storage) (hr : Reachable st) :
    ∀ t ∈ st.transactions,
      ((getTransactionLogs st t.hash).map Log.log_index)
        = List.range (getTransactionLogs st t.hash).length ∧
      ((getTransactionLogs st t.hash).map Log.log_index).Pairwise (· < ·) ∧
      ((getTransactionLogs st t.hash).map Log.log_index).Nodup := by
  intro t ht
  have hinv := reachable_inv hr
  obtain ⟨bb, hbb, hc, hn⟩ := hinv.txOwned t ht
  have hcomp := hinv.complete bb hbb
  have htmem : t ∈ txsOfBlock st bb := by
    unfold txsOfBlock
    rw [List.mem_filter]
    refine ⟨ht, ?_⟩
    rw [Bool.and_eq_true, beq_iff_eq, beq_iff_eq]
    exact ⟨by omega, by omega⟩
  obtain ⟨-, hlg⟩ := hcomp.2 t htmem
  refine ⟨hlg, ?_, ?_⟩
  · rw [hlg]
    exact List.pairwise_lt_range _
  · rw [hlg]
    exact List.nodup_range _

/-- C7: every poll cycle queries the current chain head; when the head is not
above the cursor nothing is indexed (the cycle is the empty run), and when it
is above, the cycle indexes exactly the delta range from the cursor plus one
up to the head using the per-block unit of work — and when no block of the
delta halts the range, the fetch trace lists exactly the block numbers of the
delta range, so a head that advanced by one block yields exactly one newly
indexed block. -/
theorem poll_cycle_delta (o : Oracle) (maxA cid headN : Nat) (st : Storage) :
    (headN ≤ getSyncState st cid → pollCycle o maxA cid headN st = initRun st) ∧
    (getSyncState st cid < headN →
      pollCycle o maxA cid headN st
        = indexRange o maxA cid (getSyncState st cid + 1) headN st) ∧
    ((pollCycle o maxA cid headN st).halted = false →
      (pollCycle o maxA cid headN st).trace.map Prod.fst
        = List.range' (getSyncState st cid + 1) (headN - getSyncState st cid)) := by
  refine ⟨?_, ?_, ?_⟩
  · intro hle
    unfold pollCycle
    rw [if_neg (by omega)]
  · intro hlt
    unfold pollCycle catchUp
    rw [if_pos hlt]
  · intro hhalt
    by_cases hlt : getSyncState st cid < headN
    · unfold pollCycle catchUp indexRange at hhalt ⊢
      rw [if_pos hlt] at hhalt ⊢
      have hfull := indexBlocks_trace_of_not_halted o maxA cid
        (List.range' (getSyncState st cid + 1) (headN + 1 - (getSyncState st cid + 1)))
        (initRun st) hhalt
      rw [hfull]
      rw [show headN + 1 - (getSyncState st cid + 1) = headN - getSyncState st cid
        by omega]
      simp [initRun]
    · unfold pollCycle at hhalt ⊢
      rw [if_neg hlt] at hhalt ⊢
      rw [show headN - getSyncState st cid = 0 by omega]
      rfl

/-! ### Concrete witnesses for the engine claims -/

/-- Demo payload: block 5 with one transaction, its receipt and one log. -/
def demoHeader : RawBlockHeader :=
  { number := 5
    hash := 500
    parent_hash := 400
    timestamp := 1000
    miner := 9
    gas_used := 21000
    gas_limit := 30000 }

def demoRawTx : RawTx :=
  { hash := 77
    sender := 1
    recipient := some 2
    value := 10
    gas := 21000
    gas_price := 3
    nonce := 0
    input_data := 0 }

def demoRawReceipt : RawReceipt :=
  { transaction_hash := 77
    status := true
    gas_used := 21000
    contract_address := none
    logs_bloom := 0 }

def demoRawLog : RawLogEntry :=
  { transaction_hash := 77
    address := 2
    topics := [5, 6]
    data := 1 }

def demoPayload : RawPayload :=
  { header := demoHeader
    txs := [demoRawTx]
    receipts := [demoRawReceipt]
    logs := [demoRawLog] }

def demoOracle : Oracle :=
  { fetch := fun _ _ => RpcResult.ok demoPayload
    writeOk := fun _ => true }

def demoBlock : Block :=
  { chain_id := 1
    number := 5
    hash := 500
    parent_hash := 400
    timestamp := 1000
    miner := 9
    gas_used := 21000
    gas_limit := 30000
    transaction_count := 1 }

def demoTx : Transaction :=
  { chain_id := 1
    hash := 77
    block_number := 5
    sender := 1
    recipient := some 2
    value := 10
    gas := 21000
    gas_price := 3
    nonce := 0
    input_data := 0 }

def demoSt5 : Storage := (indexRange demoOracle 3 1 5 5 emptyStorage).storage

/-- Payload of an empty block, for the polling and skip demos. -/
def mkPayload (n : Nat) : RawPayload :=
  { header :=
      { number := n
        hash := n + 1000
        parent_hash := n + 999
        timestamp := n
        miner := 0
        gas_used := 0
        gas_limit := 0 }
    txs := []
    receipts := []
    logs := [] }

/-- Oracle whose block 5 is malformed and whose other blocks are fine. -/
def demoOracleC5 : Oracle :=
  { fetch := fun n _ => if n = 5 then RpcResult.malformed else RpcResult.ok (mkPayload n)
    writeOk := fun _ => true }

def demoSt104 : Storage := setSyncState emptyStorage 1 104

def demoBlock105 : Block :=
  { chain_id := 1
    number := 105
    hash := 1105
    parent_hash := 1104
    timestamp := 105
    miner := 0
    gas_used := 0
    gas_limit := 0
    transaction_count := 0 }

theorem upsertBlock_atomic_no_partial_blocks_witness :
    blockComplete demoSt5 demoBlock :=
  upsertBlock_atomic_no_partial_blocks.2 demoSt5
    (Reachable.backfill demoOracle 3 1 5 5 Reachable.init) demoBlock (by decide)

theorem cursor_monotone_resume_witness :
    (∃ bb ∈ (indexRange demoOracle 3 1 5 5 emptyStorage).storage.blocks,
      bb.chain_id = 1 ∧
      bb.number = getSyncState (indexRange demoOracle 3 1 5 5 emptyStorage).storage 1) ∧
    pollCycle demoOracle 3 1 6 emptyStorage = indexRange demoOracle 3 1 1 6 emptyStorage :=
  ⟨(cursor_monotone_resume demoOracle 3 1 5 5 6 emptyStorage 1).2.2.1 (by decide),
   (cursor_monotone_resume demoOracle 3 1 5 5 6 emptyStorage 1).2.2.2 (by decide)⟩

theorem reindex_idempotent_witness :
    (indexRange demoOracle 3 1 5 5 demoSt5).storage = demoSt5 ∧
    (indexRange demoOracle 3 1 5 5 demoSt5).gaps = [] ∧
    (indexRange demoOracle 3 1 5 5 demoSt5).surfaced = [] ∧
    (indexRange demoOracle 3 1 5 5 demoSt5).halted = false :=
  reindex_idempotent demoOracle 3 1 5 5 demoSt5 (by decide)
    (fun n2 h1 h2 => by
      have h3 : n2 = 5 := by omega
      subst h3
      exact ⟨demoBlock, by decide, by decide, by decide⟩)
    (fun n2 h1 h2 => by
      have h3 : n2 = 5 := by omega
      subst h3
      exact ⟨demoPayload, demoBlock,
        [demoTx],
        [{ transaction_hash := 77
           status := true
           gas_used := 21000
           contract_address := none
           logs_bloom := 0 }],
        [{ chain_id := 1
           transaction_hash := 77
           log_index := 0
           address := 2
           topics := [5, 6]
           data := 1 }],
        rfl, rfl⟩)

theorem status_percent_spec_witness :
    (statusQuery demoSt104 1 104).percentSynced = 100 ∧
    (statusQuery demoSt104 1 0).percentSynced = 0 :=
  ⟨(status_percent_spec demoSt104 1 104).2.2.1 (by decide) (by decide),
   (status_percent_spec demoSt104 1 0).2.1 rfl⟩

theorem data_integrity_skip_witness :
    ((indexRange demoOracleC5 3 1 4 6 emptyStorage).trace.filter
        (fun e2 => e2.1 == 5)) = [(5, 1)] ∧
    5 ∈ (indexRange demoOracleC5 3 1 4 6 emptyStorage).gaps ∧
    (∃ u, (6, u) ∈ (indexRange demoOracleC5 3 1 4 6 emptyStorage).trace) :=
  ⟨(data_integrity_skip demoOracleC5 3 1 4 6 5 emptyStorage (by decide) (by decide)
      (by decide) (by decide) (Or.inl rfl)).1,
   (data_integrity_skip demoOracleC5 3 1 4 6 5 emptyStorage (by decide) (by decide)
      (by decide) (by decide) (Or.inl rfl)).2.1,
   (data_integrity_skip demoOracleC5 3 1 4 6 5 emptyStorage (by decide) (by decide)
      (by decide) (by decide) (Or.inl rfl)).2.2.2.2.2 (by decide)⟩

theorem transaction_logs_ascending_witness :
    ((getTransactionLogs demoSt5 demoTx.hash).map Log.log_index)
      = List.range (getTransactionLogs demoSt5 demoTx.hash).length ∧
    ((getTransactionLogs demoSt5 demoTx.hash).map Log.log_index).Pairwise (· < ·) ∧
    ((getTransactionLogs demoSt5 demoTx.hash).map Log.log_index).Nodup :=
  transaction_logs_ascending demoSt5
    (Reachable.backfill demoOracle 3 1 5 5 Reachable.init) demoTx (by decide)

theorem poll_cycle_delta_witness :
    pollCycle demoOracleC5 3 1 105 demoSt104
      = indexRange demoOracleC5 3 1 105 105 demoSt104 ∧
    (pollCycle demoOracleC5 3 1 105 demoSt104).trace.map Prod.fst = [105] ∧
    pollCycle demoOracleC5 3 1 100 demoSt104 = initRun demoSt104 ∧
    (pollCycle demoOracleC5 3 1 105 demoSt104).storage.blocks = [demoBlock105] :=
  ⟨(poll_cycle_delta demoOracleC5 3 1 105 demoSt104).2.1 (by decide),
   (poll_cycle_delta demoOracleC5 3 1 105 demoSt104).2.2 (by decide),
   (poll_cycle_delta demoOracleC5 3 1 100 demoSt104).1 (by decide),
   by decide⟩

end OpenScan
